import Mathlib

/-!
Verification of the Invoice-Extraction-Pipeline against its design spec.

The Python sources are shallowly embedded: Python strings become `List Char`,
the regex searches of the sources are rendered as executable character-list
scanners (each definition documents the regex it embeds), floats that hold
exact decimal values become `Rat`, and `None` becomes `Option`.
-/

namespace Invoice

/-- Python strings are modelled as lists of characters. -/
abbrev PyStr := List Char

/-- Coerce a Lean string literal to the model type. -/
def pyOf (s : String) : PyStr := s.toList

/-- Python whitespace, as recognised by `str.strip()` and the regex class. -/
def isWs (c : Char) : Bool :=
  c = ' ' || c = '\t' || c = '\n' || c = '\r' || c = '\x0b' || c = '\x0c'

/-- ASCII word character, the regex word class used by word boundaries. -/
def isWord (c : Char) : Bool := c.isAlphanum || c = '_'

/-- ASCII decimal digit, the regex digit class. -/
def isDigitC (c : Char) : Bool := '0' ≤ c && c ≤ '9'

/-- Character class `[0-9A-Z]` of the carrier tracking-number patterns. -/
def isUpperAlnum (c : Char) : Bool := ('0' ≤ c && c ≤ '9') || ('A' ≤ c && c ≤ 'Z')

/-- Case-insensitive variant of `[0-9A-Z]` (class `[0-9A-Za-z]`). -/
def isAlnumCI (c : Char) : Bool :=
  ('0' ≤ c && c ≤ '9') || ('A' ≤ c && c ≤ 'Z') || ('a' ≤ c && c ≤ 'z')

/-- Python `str.strip()`: drop whitespace from both ends. -/
def pyStrip (s : PyStr) : PyStr :=
  ((s.dropWhile isWs).reverse.dropWhile isWs).reverse

/-- Python `str.lower()` on one character, covering the German letters that occur
in the source's tables. -/
def pyLowerC (c : Char) : Char :=
  if c = 'Ä' then 'ä' else if c = 'Ö' then 'ö' else if c = 'Ü' then 'ü' else c.toLower

/-- Python `str.lower()`. -/
def pyLower (s : PyStr) : PyStr := s.map pyLowerC

/-- Python `str.upper()` on one character (same character coverage). -/
def pyUpperC (c : Char) : Char :=
  if c = 'ä' then 'Ä' else if c = 'ö' then 'Ö' else if c = 'ü' then 'Ü' else c.toUpper

/-- Python `str.upper()`. -/
def pyUpper (s : PyStr) : PyStr := s.map pyUpperC

/-- Python substring containment `needle in hay`. -/
def containsSub (hay needle : PyStr) : Bool :=
  hay.tails.any fun suf => needle.isPrefixOf suf

/-- Case-insensitive substring search, the semantics of an `re.IGNORECASE`
search for a literal word. -/
def containsCI (hay needle : PyStr) : Bool :=
  containsSub (pyLower hay) (pyLower needle)

/-- Helper for `str.split("\n")`. -/
def splitNLAux : PyStr → PyStr → List PyStr
  | [], acc => [acc]
  | c :: cs, acc => if c = '\n' then acc :: splitNLAux cs [] else splitNLAux cs (acc ++ [c])

/-- Python `text.split("\n")` (keeps empty pieces, exactly like the source). -/
def splitNL (s : PyStr) : List PyStr := splitNLAux s []

/-- Python `"\n".join(lines)`. -/
def joinNL : List PyStr → PyStr
  | [] => []
  | [l] => l
  | l :: l2 :: ls => l ++ '\n' :: joinNL (l2 :: ls)

/-- Strip `kw` as a prefix, returning the remainder on success. -/
def afterPrefix : PyStr → PyStr → Option PyStr
  | [], s => some s
  | _ :: _, [] => none
  | k :: ks, c :: cs => if k = c then afterPrefix ks cs else none

/-- Continuation `\s+\d+` after a keyword: at least one whitespace character and
then a digit (the first non-whitespace character must be a digit). -/
def wsThenDigit (s : PyStr) : Bool :=
  match s with
  | c :: cs => isWs c && isDigitC ((cs.dropWhile isWs).headD 'x')
  | [] => false

/-!
### Tracking-number regexes

All carrier tracking patterns in the sources have the form
`\b F S BODY{lo,hi} \b` for single-character classes `F`, `S` and a body class
contained in the word class.  Since every character of a candidate match is a
word character, a match can only start where the previous character is not a
word character, the body run must be maximal, and it must be followed by a
non-word character (or the end).  The scanner below implements exactly that.
-/

/-- Match of a pattern `F S BODY{lo,hi}\b` at the head of the list, where `prev`
is the character before the head (for the leading `\b`). -/
def upsLikeAt (fs ss chs : Char → Bool) (lo hi : Nat) (prev : Option Char) : PyStr → Bool
  | c1 :: c2 :: rest =>
    fs c1 && ss c2 &&
    (match prev with | none => true | some p => !isWord p) &&
    (let r := (rest.takeWhile chs).length
     decide (lo ≤ r) && decide (r ≤ hi) &&
     (match rest.drop r with | [] => true | d :: _ => !isWord d))
  | _ => false

/-- Existence of a match anywhere in the string (Python `re.search`). -/
def upsLikeSearchAux (fs ss chs : Char → Bool) (lo hi : Nat) (prev : Option Char) : PyStr → Bool
  | [] => false
  | c :: cs =>
    upsLikeAt fs ss chs lo hi prev (c :: cs) || upsLikeSearchAux fs ss chs lo hi (some c) cs

def upsLikeSearch (fs ss chs : Char → Bool) (lo hi : Nat) (s : PyStr) : Bool :=
  upsLikeSearchAux fs ss chs lo hi none s

/-- `Segmenter.RE_TRACKING = \b1Z[0-9A-Z]{8,18}\b`, as `re.search`. -/
def hasTracking (s : PyStr) : Bool :=
  upsLikeSearch (· = '1') (· = 'Z') isUpperAlnum 8 18 s

/-!
### Segmenter (src/segmenter.py)
-/

/-- `pdf_loader.Page` dataclass. -/
structure Page where
  page_num : Nat
  text : PyStr
  is_scanned : Bool
deriving DecidableEq

/-- `segmenter.ShipmentBlock` dataclass. -/
structure ShipmentBlock where
  text : PyStr
  page_num : Nat
deriving DecidableEq

/-- `lines = [ln.strip() for ln in page.text.split("\n") if ln.strip()]`. -/
def pageLines (t : PyStr) : List PyStr :=
  ((splitNL t).map pyStrip).filter fun l => !l.isEmpty

/-- `Segmenter.RE_INVOICE_HEADER` =
`(Rechnung|Invoice|UPS|Kunden\-Nr|Rechnungsdatum|Lieferant|Dachser)`, searched
case-insensitively: containment of one of the literal alternatives. -/
def isHeaderLine (l : PyStr) : Bool :=
  [pyOf "rechnung", pyOf "invoice", pyOf "ups", pyOf "kunden-nr",
   pyOf "rechnungsdatum", pyOf "lieferant", pyOf "dachser"].any
    fun k => containsSub (pyLower l) k

/-- `Segmenter.RE_FOOTER = (Seite\s+\d+|Page\s+\d+)`, case-insensitive search. -/
def isFooterLine (l : PyStr) : Bool :=
  let low := pyLower l
  low.tails.any fun suf =>
    (match afterPrefix (pyOf "seite") suf with | some r => wsThenDigit r | none => false) ||
    (match afterPrefix (pyOf "page") suf with | some r => wsThenDigit r | none => false)

/-- Header or footer: a line the segmenter always skips. -/
def isHF (l : PyStr) : Bool := isHeaderLine l || isFooterLine l

/-- The segmenter's mutable state: `blocks`, `current_lines`,
`current_page_start`, `inside_shipment`. -/
structure SegState where
  blocks : List ShipmentBlock
  current_lines : List PyStr
  current_page_start : Option Nat
  inside : Bool
deriving DecidableEq

/-- `blocks.append(ShipmentBlock("\n".join(current_lines), current_page_start))`
followed by `current_lines = []`.  (`current_page_start` is always set when the
source reaches this append; `getD 0` renders the `None` initialisation.) -/
def closeBlock (st : SegState) : SegState :=
  { st with
    blocks := st.blocks ++ [⟨joinNL st.current_lines, st.current_page_start.getD 0⟩],
    current_lines := [] }

/-- Body of the segmenter's per-line loop. -/
def processLine (pn : Nat) (st : SegState) (line : PyStr) : SegState :=
  if isHF line then st
  else
    let st1 :=
      if hasTracking line then
        let st0 := if st.inside && !st.current_lines.isEmpty then closeBlock st else st
        { st0 with inside := true, current_page_start := some pn }
      else st
    if st1.inside then { st1 with current_lines := st1.current_lines ++ [line] } else st1

/-- `any(self.RE_TRACKING.search(l) for l in next_lines)` on a page's
stripped non-empty lines. -/
def pageHasTracking (p : Page) : Bool := (pageLines p.text).any hasTracking

/-- One iteration of the segmenter's page loop: the per-line loop over the
page's lines followed by the page-break look-ahead into `rest`. -/
def segStep (p : Page) (rest : List Page) (st : SegState) : SegState :=
  let st1 := (pageLines p.text).foldl (processLine p.page_num) st
  if st1.inside then
    match rest with
    | [] => st1
    | pnext :: _ =>
      if pageHasTracking pnext then { closeBlock st1 with inside := false } else st1
  else st1

/-- The segmenter's page loop. -/
def segLoop : List Page → SegState → SegState
  | [], st => st
  | p :: rest, st => segLoop rest (segStep p rest st)

/-- `Segmenter.segment`. -/
def segment (pages : List Page) : List ShipmentBlock :=
  let st := segLoop pages ⟨[], [], none, false⟩
  if st.inside && !st.current_lines.isEmpty then (closeBlock st).blocks else st.blocks

/-!
### Segmenter lemmas
-/

theorem processLine_skip (pn : Nat) (st : SegState) (l : PyStr) (h : isHF l = true) :
    processLine pn st l = st := by
  simp [processLine, h]

theorem processLine_quiet (pn : Nat) (st : SegState) (l : PyStr)
    (hin : st.inside = false) (ht : hasTracking l = false) :
    processLine pn st l = st := by
  simp [processLine, ht, hin]

theorem processLine_collect (pn : Nat) (st : SegState) (l : PyStr)
    (hin : st.inside = true) (ht : hasTracking l = false) (hf : isHF l = false) :
    processLine pn st l = { st with current_lines := st.current_lines ++ [l] } := by
  simp [processLine, hf, ht, hin]

theorem processLine_open (pn : Nat) (st : SegState) (t : PyStr)
    (hin : st.inside = false) (htr : hasTracking t = true) (hhf : isHF t = false) :
    processLine pn st t =
      { st with inside := true, current_page_start := some pn,
                current_lines := st.current_lines ++ [t] } := by
  simp [processLine, hhf, htr, hin]

theorem foldl_quiet (pn : Nat) (ls : List PyStr) :
    ∀ st : SegState, st.inside = false → (∀ l ∈ ls, hasTracking l = false) →
      ls.foldl (processLine pn) st = st := by
  induction ls with
  | nil => intro st _ _; rfl
  | cons l ls ih =>
    intro st hin h
    have h0 : hasTracking l = false := h l (by simp)
    rw [List.foldl_cons, processLine_quiet pn st l hin h0]
    exact ih st hin fun x hx => h x (by simp [hx])

theorem foldl_collect (pn : Nat) (ls : List PyStr) :
    ∀ st : SegState, st.inside = true → (∀ l ∈ ls, hasTracking l = false) →
      ls.foldl (processLine pn) st =
        { st with current_lines := st.current_lines ++ ls.filter fun l => !isHF l } := by
  induction ls with
  | nil => intro st _ _; simp
  | cons l ls ih =>
    intro st hin h
    have h0 : hasTracking l = false := h l (by simp)
    have hrest : ∀ x ∈ ls, hasTracking x = false := fun x hx => h x (by simp [hx])
    rw [List.foldl_cons]
    cases hf : isHF l with
    | true =>
      rw [processLine_skip pn st l hf, ih st hin hrest]
      simp [List.filter_cons, hf]
    | false =>
      rw [processLine_collect pn st l hin h0 hf]
      rw [ih { st with current_lines := st.current_lines ++ [l] } hin hrest]
      simp [List.filter_cons, hf]

/-- Lines of a page from its first tracking line onward, headers and footers
removed: the lines the segmenter collects for that page's block. -/
def openLines (p : Page) : List PyStr :=
  ((pageLines p.text).dropWhile fun l => !hasTracking l).filter fun l => !isHF l

/-- The block a self-contained page contributes. -/
def pageBlock (p : Page) : ShipmentBlock := ⟨joinNL (openLines p), p.page_num⟩

/-- A page containing exactly one tracking line, which is not filtered as a
header or footer. -/
def GoodPage (p : Page) : Prop :=
  ∃ pre t post, pageLines p.text = pre ++ t :: post ∧
    hasTracking t = true ∧ isHF t = false ∧
    (∀ l ∈ pre, hasTracking l = false) ∧ (∀ l ∈ post, hasTracking l = false)

theorem dropWhile_middle (q : PyStr → Bool) :
    ∀ (pre : List PyStr) (t : PyStr) (post : List PyStr),
      (∀ l ∈ pre, q l = true) → q t = false →
      (pre ++ t :: post).dropWhile q = t :: post := by
  intro pre
  induction pre with
  | nil => intro t post _ hqt; simp [List.dropWhile_cons, hqt]
  | cons a pre ih =>
    intro t post hpre hqt
    have ha : q a = true := hpre a (by simp)
    simp only [List.cons_append, List.dropWhile_cons, ha]
    exact ih t post (fun x hx => hpre x (by simp [hx])) hqt

theorem openLines_eq (p : Page) (pre : List PyStr) (t : PyStr) (post : List PyStr)
    (hsplit : pageLines p.text = pre ++ t :: post)
    (hpre : ∀ l ∈ pre, hasTracking l = false) (htr : hasTracking t = true)
    (hhf : isHF t = false) :
    openLines p = t :: post.filter fun l => !isHF l := by
  unfold openLines
  rw [hsplit, dropWhile_middle _ pre t post (fun l hl => by simp [hpre l hl]) (by simp [htr])]
  simp [List.filter_cons, hhf]

theorem pageHasTracking_of_good (p : Page) (h : GoodPage p) : pageHasTracking p = true := by
  obtain ⟨pre, t, post, hsplit, htr, -, -, -⟩ := h
  have ht : t ∈ pageLines p.text := by rw [hsplit]; simp
  exact List.any_eq_true.mpr ⟨t, ht, htr⟩

theorem foldl_goodpage (pn : Nat) (B : List ShipmentBlock) (cps : Option Nat)
    (pre : List PyStr) (t : PyStr) (post : List PyStr)
    (hpre : ∀ l ∈ pre, hasTracking l = false) (htr : hasTracking t = true)
    (hhf : isHF t = false) (hpost : ∀ l ∈ post, hasTracking l = false) :
    (pre ++ t :: post).foldl (processLine pn) ⟨B, [], cps, false⟩ =
      ⟨B, t :: post.filter (fun l => !isHF l), some pn, true⟩ := by
  rw [List.foldl_append, foldl_quiet pn pre _ rfl hpre, List.foldl_cons,
    processLine_open pn _ t rfl htr hhf]
  rw [foldl_collect pn post _ rfl hpost]
  simp

theorem segLoop_good :
    ∀ (pages : List Page) (hne : pages ≠ []) (_ : ∀ p ∈ pages, GoodPage p)
      (B : List ShipmentBlock) (cps : Option Nat),
      segLoop pages ⟨B, [], cps, false⟩ =
        ⟨B ++ (pages.dropLast).map pageBlock, openLines (pages.getLast hne),
         some (pages.getLast hne).page_num, true⟩ := by
  intro pages
  induction pages with
  | nil => intro hne; exact absurd rfl hne
  | cons p rest ih =>
    intro hne h B cps
    obtain ⟨pre, t, post, hsplit, htr, hhf, hpre, hpost⟩ := h p (by simp)
    have hopen : openLines p = t :: post.filter fun l => !isHF l :=
      openLines_eq p pre t post hsplit hpre htr hhf
    cases rest with
    | nil =>
      rw [segLoop, segLoop]
      simp only [segStep]
      rw [hsplit, foldl_goodpage p.page_num B cps pre t post hpre htr hhf hpost]
      simp [hopen]
    | cons q rest2 =>
      have hq : pageHasTracking q = true := pageHasTracking_of_good q (h q (by simp))
      have hblock : pageBlock p = ⟨joinNL (t :: post.filter fun l => !isHF l), p.page_num⟩ := by
        simp [pageBlock, hopen]
      rw [segLoop]
      simp only [segStep]
      rw [hsplit, foldl_goodpage p.page_num B cps pre t post hpre htr hhf hpost]
      simp only [hq, if_true, closeBlock, Option.getD_some]
      rw [ih (List.cons_ne_nil q rest2) (fun x hx => h x (by simp [hx]))]
      simp [hblock, List.getLast_cons]

theorem joinNL_cons_prefix (l : PyStr) (ls : List PyStr) : l <+: joinNL (l :: ls) := by
  cases ls with
  | nil => exact List.prefix_refl l
  | cons b bs => exact ⟨'\n' :: joinNL (b :: bs), rfl⟩

theorem tracking_decomp_unique (xs : List PyStr) (pre : List PyStr) (t : PyStr)
    (post : List PyStr) (pre2 : List PyStr) (t2 : PyStr) (post2 : List PyStr)
    (h1 : xs = pre ++ t :: post) (h2 : xs = pre2 ++ t2 :: post2)
    (hp1 : ∀ l ∈ pre, hasTracking l = false) (ht1 : hasTracking t = true)
    (hp2 : ∀ l ∈ pre2, hasTracking l = false) (ht2 : hasTracking t2 = true) :
    t = t2 ∧ post = post2 := by
  have e1 : xs.dropWhile (fun l => !hasTracking l) = t :: post := by
    rw [h1]
    exact dropWhile_middle _ pre t post (fun l hl => by simp [hp1 l hl]) (by simp [ht1])
  have e2 : xs.dropWhile (fun l => !hasTracking l) = t2 :: post2 := by
    rw [h2]
    exact dropWhile_middle _ pre2 t2 post2 (fun l hl => by simp [hp2 l hl]) (by simp [ht2])
  rw [e1] at e2
  exact ⟨by injection e2, by injection e2⟩

/-- C1 (amended).  For pages each containing exactly one tracking-number line,
that line not itself matching the header/footer filter, `segment` returns
exactly one block per page, in page order; each block's text starts with its
page's tracking line and carries that page's number.  (The amendment adds the
header/footer side condition: as stated the claim fails when the unique
tracking line also matches the always-discarded header pattern, e.g. when the
tracking number contains the substring "UPS" — see the counterexample.) -/
theorem segment_one_block_per_page (pages : List Page)
    (h : ∀ p ∈ pages, GoodPage p) :
    segment pages = pages.map pageBlock ∧
    (segment pages).length = pages.length ∧
    ∀ p ∈ pages, ∀ pre t post, pageLines p.text = pre ++ t :: post →
      (∀ l ∈ pre, hasTracking l = false) → hasTracking t = true →
      t <+: (pageBlock p).text := by
  have hmain : segment pages = pages.map pageBlock := by
    cases pages with
    | nil => rfl
    | cons p rest =>
      have hne : (p :: rest) ≠ [] := List.cons_ne_nil p rest
      obtain ⟨pre, t, post, hsplit, htr, hhf, hpre, hpost⟩ :=
        h ((p :: rest).getLast hne) (List.getLast_mem hne)
      have hopen := openLines_eq _ pre t post hsplit hpre htr hhf
      simp only [segment]
      rw [segLoop_good (p :: rest) hne h [] none]
      simp only [hopen, List.isEmpty_cons, Bool.not_false, Bool.and_true, if_true,
        closeBlock, Option.getD_some, List.nil_append]
      rw [← hopen]
      rw [show (⟨joinNL (openLines ((p :: rest).getLast hne)),
            ((p :: rest).getLast hne).page_num⟩ : ShipmentBlock)
          = pageBlock ((p :: rest).getLast hne) from rfl]
      rw [← List.map_singleton pageBlock, ← List.map_append,
        List.dropLast_append_getLast hne]
  refine ⟨hmain, by rw [hmain]; simp, ?_⟩
  intro p hp pre t post hsplit hpre htr
  obtain ⟨pre0, t0, post0, hsplit0, htr0, hhf0, hpre0, hpost0⟩ := h p hp
  obtain ⟨ht, hpost⟩ :=
    tracking_decomp_unique (pageLines p.text) pre t post pre0 t0 post0 hsplit hsplit0
      hpre htr hpre0 htr0
  have hopen := openLines_eq p pre0 t0 post0 hsplit0 hpre0 htr0 hhf0
  subst ht
  rw [show (pageBlock p).text = joinNL (openLines p) from rfl, hopen]
  exact joinNL_cons_prefix t _

/-- Concrete two-page input for the C1 witness. -/
def pgA : Page := ⟨1, pyOf "1ZAAAA11112222 foo\nrest1", false⟩

def pgB : Page := ⟨2, pyOf "1ZBBBB33334444 bar", false⟩

/-- Witness for C1 (amended): a concrete two-page document, one clean tracking
line per page, yields exactly the two expected blocks. -/
theorem segment_one_block_per_page_witness :
    segment [pgA, pgB] =
      [⟨pyOf "1ZAAAA11112222 foo\nrest1", 1⟩, ⟨pyOf "1ZBBBB33334444 bar", 2⟩] := by
  have h : ∀ p ∈ [pgA, pgB], GoodPage p := by
    intro p hp
    rcases List.mem_cons.mp hp with rfl | hp2
    · exact ⟨[], pyOf "1ZAAAA11112222 foo", [pyOf "rest1"], by decide, by decide,
        by decide, by decide, by decide⟩
    rcases List.mem_cons.mp hp2 with rfl | hp3
    · exact ⟨[], pyOf "1ZBBBB33334444 bar", [], by decide, by decide, by decide,
        by decide, by decide⟩
    · exact absurd hp3 (by simp)
  exact (segment_one_block_per_page [pgA, pgB] h).1.trans (by decide)

/-- Concrete input refuting C1 as stated. -/
def cexPages : List Page :=
  [⟨1, pyOf "1ZAAAA11112222", false⟩, ⟨2, pyOf "1ZAAUPSA1122", false⟩]

/-- C1 counterexample: both pages contain exactly one line matching the
tracking pattern (`1Z` + 8–18 alphanumerics) and no shipment continues across
pages, yet `segment` returns one block instead of two — page 2's tracking
number contains the substring "UPS", so the invoice-header filter discards the
line before it can open a block. -/
theorem segment_per_page_counterexample :
    (∀ p ∈ cexPages, (pageLines p.text).countP hasTracking = 1) ∧
    cexPages.length = 2 ∧ (segment cexPages).length = 1 := by decide

/-- Concrete two-page continuation documents refuting C2 as stated: in the
first, a harmless note precedes page 1's tracking line; in the second, the
tracking line itself contains "UPS". -/
def cexContPagesA : List Page :=
  [⟨1, pyOf "note before\n1ZDDDD77778888 x", false⟩, ⟨2, pyOf "cont line", false⟩]

def cexContPagesB : List Page :=
  [⟨1, pyOf "1ZAAUPSB1122 x", false⟩, ⟨2, pyOf "cont", false⟩]

/-- C2 counterexample: both documents have a tracking-number line only on
page 1 and a tracking-free continuation page 2, yet in the first the single
returned block omits page 1's non-header/footer line "note before" (lines
before the tracking anchor are dropped, `current_lines` being closed/empty),
and in the second no block is returned at all (the tracking line contains
"UPS", so the header filter discards it before it can open a block). -/
theorem segment_continuation_counterexample :
    ((pageLines (pyOf "note before\n1ZDDDD77778888 x")).countP hasTracking = 1 ∧
     (∀ l ∈ pageLines (pyOf "cont line"), hasTracking l = false) ∧
     isHF (pyOf "note before") = false ∧
     (segment cexContPagesA).length = 1 ∧
     ∀ b ∈ segment cexContPagesA, containsSub b.text (pyOf "note before") = false) ∧
    ((pageLines (pyOf "1ZAAUPSB1122 x")).countP hasTracking = 1 ∧
     (∀ l ∈ pageLines (pyOf "cont"), hasTracking l = false) ∧
     segment cexContPagesB = []) := by decide

/-- C2 (amended): a document of two consecutive pages where only page 1 has a
tracking-number line — that line not itself matching the header/footer
filter — and page 2 has none, yields exactly one block: its text is the
newline-join of page 1's non-header/footer lines from the tracking line
onward followed by page 2's non-header/footer lines, its `page_num` is
page 1's number, and every such line is contained in it.  (The amendment
restricts the containment to the lines from the tracking anchor onward —
earlier lines are dropped by the segmenter — and adds the header/footer side
condition on the tracking line; the counterexample shows both restrictions
are forced.) -/
theorem segment_continuation (p1 p2 : Page) (pre : List PyStr) (t : PyStr)
    (post : List PyStr)
    (h1 : pageLines p1.text = pre ++ t :: post)
    (hpre : ∀ l ∈ pre, hasTracking l = false)
    (htr : hasTracking t = true) (hhf : isHF t = false)
    (hpost : ∀ l ∈ post, hasTracking l = false)
    (h2 : ∀ l ∈ pageLines p2.text, hasTracking l = false) :
    segment [p1, p2] =
      [⟨joinNL (t :: (post ++ pageLines p2.text).filter fun l => !isHF l), p1.page_num⟩] ∧
    ∀ l, (l ∈ t :: post ∨ l ∈ pageLines p2.text) → isHF l = false →
      l ∈ t :: (post ++ pageLines p2.text).filter fun l => !isHF l := by
  constructor
  · have hfold1 := foldl_goodpage p1.page_num [] none pre t post hpre htr hhf hpost
    have hq : pageHasTracking p2 = false := by
      simp only [pageHasTracking, List.any_eq_false]
      intro x hx
      simp [h2 x hx]
    simp only [segment, segLoop, segStep, h1]
    rw [hfold1]
    simp only [hq, Bool.false_eq_true, if_false]
    rw [foldl_collect p2.page_num (pageLines p2.text) _ rfl h2]
    simp [closeBlock, List.filter_append]
  · intro l hl hhfl
    rcases hl with hl1 | hl2
    · rcases List.mem_cons.mp hl1 with rfl | hpostmem
      · exact List.mem_cons_self _ _
      · exact List.mem_cons_of_mem _
          (List.mem_filter.mpr ⟨List.mem_append_left _ hpostmem, by simp [hhfl]⟩)
    · exact List.mem_cons_of_mem _
        (List.mem_filter.mpr ⟨List.mem_append_right _ hl2, by simp [hhfl]⟩)

/-- Concrete pages for the C2 witness, with a dropped pre-anchor line. -/
def c2p1 : Page := ⟨1, pyOf "preamble\n1ZCCCC55556666 x\ndetail", false⟩

def c2p2 : Page := ⟨2, pyOf "cont one\ncont two", false⟩

/-- Witness for C2 (amended): a concrete continuation document yields the
single merged block, anchored at the tracking line. -/
theorem segment_continuation_witness :
    segment [c2p1, c2p2] =
      [⟨pyOf "1ZCCCC55556666 x\ndetail\ncont one\ncont two", 1⟩] :=
  ((segment_continuation c2p1 c2p2 [pyOf "preamble"] (pyOf "1ZCCCC55556666 x")
      [pyOf "detail"] (by decide) (by decide) (by decide) (by decide) (by decide)
      (by decide)).1).trans (by decide)

/-!
### IdentifierExtractor (src/extractors/identifiers.py)

The three identifier regexes all have the form `\b C₁ C₂ BODY{lo,hi} \b`
(respectively `\b BODY{8,25} \b`) with every character class contained in the
word class.  A match must therefore start and end at a word boundary while all
its interior positions are word/word, so the matches of such a pattern are
exactly the maximal word-character runs ("word tokens") of the right shape,
and `findall` returns the qualifying tokens left to right (non-overlap is
automatic because distinct tokens are disjoint).
-/

/-- Helper splitting a string into maximal runs of word characters. -/
def tokensAux : PyStr → PyStr → List PyStr
  | [], acc => if acc.isEmpty then [] else [acc]
  | c :: cs, acc =>
    if isWord c then tokensAux cs (acc ++ [c])
    else if acc.isEmpty then tokensAux cs [] else acc :: tokensAux cs []

/-- Maximal runs of word characters of a string. -/
def wordTokens (s : PyStr) : List PyStr := tokensAux s []

/-- `RE_UPS_STRICT = \b1Z[0-9A-Z]{8,20}\b` as a predicate on a word token. -/
def isStrictTok : PyStr → Bool
  | '1' :: 'Z' :: rest =>
    rest.all isUpperAlnum && decide (8 ≤ rest.length) && decide (rest.length ≤ 20)
  | _ => false

/-- `RE_UPS_STRICT.findall(text)`. -/
def findallStrict (s : PyStr) : List PyStr := (wordTokens s).filter isStrictTok

/-- `RE_UPS_LOOSE = \b[1Iil][Zz][0-9A-Z]{8,20}\b` as a predicate on a word token. -/
def isLooseTok : PyStr → Bool
  | c1 :: c2 :: rest =>
    (c1 = '1' || c1 = 'I' || c1 = 'i' || c1 = 'l') && (c2 = 'Z' || c2 = 'z') &&
    rest.all isUpperAlnum && decide (8 ≤ rest.length) && decide (rest.length ≤ 20)
  | _ => false

/-- `RE_UPS_LOOSE.findall(text)`. -/
def findallLoose (s : PyStr) : List PyStr := (wordTokens s).filter isLooseTok

/-- `RE_GENERIC = \b[A-Z0-9]{8,25}\b` as a predicate on a word token. -/
def isGenericTok (t : PyStr) : Bool :=
  t.all isUpperAlnum && decide (8 ≤ t.length) && decide (t.length ≤ 25)

/-- `RE_GENERIC.findall(text)`. -/
def findallGeneric (s : PyStr) : List PyStr := (wordTokens s).filter isGenericTok

/-- `IdentifierExtractor._fix_ocr`. -/
def fixOcr (s : PyStr) : PyStr :=
  s.map fun c => if c = 'O' || c = 'o' then '0' else if c = 'I' || c = 'l' then '1' else c

/-- `re.sub(r"^[Iil]", "1", s)`: replace a leading `I`/`i`/`l` by `1`. -/
def fixHead : PyStr → PyStr
  | c :: rest => (if c = 'I' || c = 'i' || c = 'l' then '1' else c) :: rest
  | [] => []

/-- `IdentifierExtractor._clean_id`: strip characters outside `[A-Za-z0-9]`,
turn a leading `I`/`i`/`l` into `1`, uppercase. -/
def cleanId (s : PyStr) : PyStr := (fixHead (s.filter isAlnumCI)).map Char.toUpper

/-- `IdentifierExtractor._is_plausible`. -/
def isPlausible (s : PyStr) : Bool :=
  if s.length < 8 then false
  else if s.all isDigitC && s.length < 10 then false
  else if (match s with | '0' :: '0' :: '0' :: _ => true | _ => false) then false
  else if containsSub s (pyOf "PKG") || containsSub s (pyOf "PACKAGE") then false
  else true

/-- `IdentifierExtractor.KEYWORDS`. -/
def idKeywords : List PyStr :=
  [pyOf "paketnummer", pyOf "frachtbrief", pyOf "tracking", pyOf "waybill", pyOf "awb",
   pyOf "referenz", pyOf "sendung", pyOf "shipment", pyOf "consignment"]

/-- Tier 2 of `extract`: loose OCR-tolerant search line by line. -/
def idTier2 : List PyStr → Option PyStr
  | [] => none
  | l :: ls =>
    match findallLoose (fixOcr l) with
    | tk :: _ => some (cleanId tk)
    | [] => idTier2 ls

/-- Tier 3 of `extract`: keyword lines scanned for plausible generic tokens. -/
def idTier3 : List PyStr → Option PyStr
  | [] => none
  | l :: ls =>
    if idKeywords.any fun k => containsSub (pyLower l) k then
      match (findallGeneric (fixOcr l)).filter isPlausible with
      | c :: _ => some (cleanId c)
      | [] => idTier3 ls
    else idTier3 ls

/-- `IdentifierExtractor.extract`. -/
def identifierExtract (block : PyStr) : Option PyStr :=
  match findallStrict block with
  | tk :: _ => some (cleanId tk)
  | [] =>
    match idTier2 (splitNL block) with
    | some r => some r
    | none =>
      match idTier3 (splitNL block) with
      | some r => some r
      | none =>
        match (findallGeneric (fixOcr block)).filter isPlausible with
        | c :: _ => some (cleanId c)
        | [] => none

/-!
### Identifier lemmas
-/

theorem isUpperAlnum_isAlnumCI (c : Char) (h : isUpperAlnum c = true) :
    isAlnumCI c = true := by
  simp [isUpperAlnum] at h
  simp [isAlnumCI]
  tauto

theorem toUpper_fixed_of_upperAlnum (c : Char) (h : isUpperAlnum c = true) :
    c.toUpper = c := by
  simp only [isUpperAlnum, Bool.or_eq_true, Bool.and_eq_true, decide_eq_true_eq,
    Char.le_def] at h
  have h3 : (48 ≤ c.toNat ∧ c.toNat ≤ 57) ∨ (65 ≤ c.toNat ∧ c.toNat ≤ 90) := by
    rcases h with ⟨h1, h2⟩ | ⟨h1, h2⟩
    · exact Or.inl ⟨h1, h2⟩
    · exact Or.inr ⟨h1, h2⟩
  unfold Char.toUpper
  have hn : ¬(c.toNat ≥ 97 ∧ c.toNat ≤ 122) := by omega
  simp [hn]

theorem isStrictTok_shape (t : PyStr) (h : isStrictTok t = true) :
    ∃ rest, t = '1' :: 'Z' :: rest ∧ (∀ c ∈ rest, isUpperAlnum c = true) := by
  unfold isStrictTok at h
  split at h
  · next rest =>
    simp only [Bool.and_eq_true, List.all_eq_true] at h
    exact ⟨rest, rfl, h.1.1⟩
  · exact absurd h (by simp)

theorem isLooseTok_shape (t : PyStr) (h : isLooseTok t = true) :
    ∃ c1 c2 rest, t = c1 :: c2 :: rest ∧
      (c1 = '1' ∨ c1 = 'I' ∨ c1 = 'i' ∨ c1 = 'l') ∧ (c2 = 'Z' ∨ c2 = 'z') ∧
      (∀ c ∈ rest, isUpperAlnum c = true) := by
  unfold isLooseTok at h
  split at h
  · next c1 c2 rest =>
    simp only [Bool.and_eq_true, Bool.or_eq_true, decide_eq_true_eq,
      List.all_eq_true] at h
    refine ⟨c1, c2, rest, rfl, ?_, h.1.1.1.2, h.1.1.2⟩
    tauto
  · exact absurd h (by simp)

theorem cleanId_of_strict (t : PyStr) (h : isStrictTok t = true) :
    ∃ r, cleanId t = '1' :: 'Z' :: r := by
  obtain ⟨rest, rfl, hall⟩ := isStrictTok_shape t h
  have hfix : ('1' :: 'Z' :: rest).filter isAlnumCI = '1' :: 'Z' :: rest :=
    List.filter_eq_self.mpr fun c hc => by
      rcases List.mem_cons.mp hc with rfl | hc2
      · decide
      rcases List.mem_cons.mp hc2 with rfl | hc3
      · decide
      · exact isUpperAlnum_isAlnumCI c (hall c hc3)
  refine ⟨rest.map Char.toUpper, ?_⟩
  rw [cleanId, hfix, fixHead]
  simp

theorem cleanId_of_loose (t : PyStr) (h : isLooseTok t = true) :
    ∃ r, cleanId t = '1' :: r := by
  obtain ⟨c1, c2, rest, rfl, h1, h2, hall⟩ := isLooseTok_shape t h
  have hc1 : isAlnumCI c1 = true := by
    rcases h1 with rfl | rfl | rfl | rfl <;> decide
  have hc2 : isAlnumCI c2 = true := by
    rcases h2 with rfl | rfl <;> decide
  have hfix : (c1 :: c2 :: rest).filter isAlnumCI = c1 :: c2 :: rest :=
    List.filter_eq_self.mpr fun c hc => by
      rcases List.mem_cons.mp hc with rfl | hcc
      · exact hc1
      rcases List.mem_cons.mp hcc with rfl | hc3
      · exact hc2
      · exact isUpperAlnum_isAlnumCI c (hall c hc3)
  refine ⟨c2.toUpper :: rest.map Char.toUpper, ?_⟩
  rw [cleanId, hfix, fixHead]
  rcases h1 with rfl | rfl | rfl | rfl <;> simp

theorem cleanId_of_generic (t : PyStr) (hg : isGenericTok t = true)
    (hp : isPlausible t = true) : cleanId t ≠ pyOf "00001618HS" := by
  simp only [isGenericTok, Bool.and_eq_true, List.all_eq_true, decide_eq_true_eq] at hg
  obtain ⟨⟨hall, hlen8⟩, -⟩ := hg
  have hfix : t.filter isAlnumCI = t :=
    List.filter_eq_self.mpr fun c hc => isUpperAlnum_isAlnumCI c (hall c hc)
  have hmap : ∀ u : PyStr, (∀ c ∈ u, isUpperAlnum c = true) → u.map Char.toUpper = u := by
    intro u hu
    calc u.map Char.toUpper
        = u.map id := List.map_congr_left fun x hx => toUpper_fixed_of_upperAlnum x (hu x hx)
      _ = u := List.map_id u
  cases t with
  | nil => exact absurd hlen8 (by simp)
  | cons c rest =>
    rw [cleanId, hfix, fixHead]
    have htgt : pyOf "00001618HS" = '0' :: pyOf "0001618HS" := by decide
    by_cases hcI : (c = 'I' || c = 'i' || c = 'l') = true
    · rw [if_pos hcI, List.map_cons, show Char.toUpper '1' = '1' from by decide, htgt]
      intro heq
      injection heq with ha _
      exact absurd ha (by decide)
    · rw [if_neg hcI, hmap (c :: rest) hall]
      intro heq
      have hple : isPlausible (pyOf "00001618HS") = true := heq ▸ hp
      exact absurd hple (by decide)

theorem idTier2_shape (ls : List PyStr) (r : PyStr) (h : idTier2 ls = some r) :
    ∃ t, isLooseTok t = true ∧ r = cleanId t := by
  induction ls with
  | nil => exact absurd h (by simp [idTier2])
  | cons l ls ih =>
    rw [idTier2] at h
    cases hl : findallLoose (fixOcr l) with
    | nil =>
      rw [hl] at h
      exact ih h
    | cons tk rest =>
      rw [hl] at h
      have h2 : some (cleanId tk) = some r := h
      have htk : isLooseTok tk = true :=
        (List.mem_filter.mp (show tk ∈ findallLoose (fixOcr l) by rw [hl]; simp)).2
      exact ⟨tk, htk, by injection h2 with h3; exact h3.symm⟩

theorem idTier3_shape (ls : List PyStr) (r : PyStr) (h : idTier3 ls = some r) :
    ∃ t, isGenericTok t = true ∧ isPlausible t = true ∧ r = cleanId t := by
  induction ls with
  | nil => exact absurd h (by simp [idTier3])
  | cons l ls ih =>
    rw [idTier3] at h
    by_cases hkw : (idKeywords.any fun k => containsSub (pyLower l) k) = true
    · rw [if_pos hkw] at h
      cases hl : (findallGeneric (fixOcr l)).filter isPlausible with
      | nil =>
        rw [hl] at h
        exact ih h
      | cons c rest =>
        rw [hl] at h
        have h2 : some (cleanId c) = some r := h
        have hc : c ∈ (findallGeneric (fixOcr l)).filter isPlausible := by rw [hl]; simp
        have hpl := (List.mem_filter.mp hc).2
        have hgen := (List.mem_filter.mp (List.mem_filter.mp hc).1).2
        exact ⟨c, hgen, hpl, by injection h2 with h3; exact h3.symm⟩
    · rw [if_neg hkw] at h
      exact ih h

/-- C3: first, the extractor never returns the implausible invoice id
"00001618HS" (every strict/loose-tier result starts with "1Z" after cleaning,
and the generic tiers reject the token for its 3+ leading zeros); second, when
the block's word tokens contain "1Z12345E0205271688" preceded by no
strict-pattern token, the strict first tier returns exactly that token. -/
theorem identifier_plausibility_and_strict :
    (∀ s : PyStr, identifierExtract s ≠ some (pyOf "00001618HS")) ∧
    (∀ s ts1 ts2, wordTokens s = ts1 ++ pyOf "1Z12345E0205271688" :: ts2 →
      (∀ u ∈ ts1, isStrictTok u = false) →
      identifierExtract s = some (pyOf "1Z12345E0205271688")) := by
  have htgt : pyOf "00001618HS" = '0' :: pyOf "0001618HS" := by decide
  constructor
  · intro s
    unfold identifierExtract
    cases h1 : findallStrict s with
    | cons tk rest =>
      have htk : isStrictTok tk = true :=
        (List.mem_filter.mp (show tk ∈ findallStrict s by rw [h1]; simp)).2
      obtain ⟨r, hr⟩ := cleanId_of_strict tk htk
      show some (cleanId tk) ≠ some (pyOf "00001618HS")
      rw [hr, htgt]
      intro hcon
      injection hcon with hcon2
      injection hcon2 with ha _
      exact absurd ha (by decide)
    | nil =>
      cases h2 : idTier2 (splitNL s) with
      | some r =>
        obtain ⟨t, hl, rfl⟩ := idTier2_shape _ r h2
        obtain ⟨r2, hr2⟩ := cleanId_of_loose t hl
        show some (cleanId t) ≠ some (pyOf "00001618HS")
        rw [hr2, htgt]
        intro hcon
        injection hcon with hcon2
        injection hcon2 with ha _
        exact absurd ha (by decide)
      | none =>
        cases h3 : idTier3 (splitNL s) with
        | some r =>
          obtain ⟨t, hg, hp, rfl⟩ := idTier3_shape _ r h3
          show some (cleanId t) ≠ some (pyOf "00001618HS")
          intro hcon
          injection hcon with hcon2
          exact cleanId_of_generic t hg hp hcon2
        | none =>
          cases h4 : (findallGeneric (fixOcr s)).filter isPlausible with
          | cons c rest =>
            have hc : c ∈ (findallGeneric (fixOcr s)).filter isPlausible := by
              rw [h4]; simp
            have hp := (List.mem_filter.mp hc).2
            have hg := (List.mem_filter.mp (List.mem_filter.mp hc).1).2
            show some (cleanId c) ≠ some (pyOf "00001618HS")
            intro hcon
            injection hcon with hcon2
            exact cleanId_of_generic c hg hp hcon2
          | nil =>
            show (none : Option PyStr) ≠ some (pyOf "00001618HS")
            simp
  · intro s ts1 ts2 htok hts1
    have hstrict : findallStrict s = pyOf "1Z12345E0205271688" :: ts2.filter isStrictTok := by
      unfold findallStrict
      rw [htok, List.filter_append, List.filter_cons]
      rw [List.filter_eq_nil_iff.mpr fun u hu => by simp [hts1 u hu]]
      simp [show isStrictTok (pyOf "1Z12345E0205271688") = true from by decide]
    unfold identifierExtract
    rw [hstrict]
    show some (cleanId (pyOf "1Z12345E0205271688")) = some (pyOf "1Z12345E0205271688")
    rw [show cleanId (pyOf "1Z12345E0205271688") = pyOf "1Z12345E0205271688" from by decide]

/-- Witness for C3: a concrete block where the strict tier fires on the token. -/
theorem identifier_strict_witness :
    identifierExtract (pyOf "ref 1Z12345E0205271688 x") = some (pyOf "1Z12345E0205271688") :=
  identifier_plausibility_and_strict.2 (pyOf "ref 1Z12345E0205271688 x")
    [pyOf "ref"] [pyOf "x"] (by decide) (by decide)

/-!
### Decimal strings and Python `int`/`str`

Helpers shared by the date extractor model: `str(n)` for a natural number,
two-digit zero padding (`f"{y:02d}"`, `strftime` `%m`/`%d`), and `int(s)` on a
digit string.
-/

/-- The decimal digit characters. -/
def digitChar : Nat → Char
  | 0 => '0' | 1 => '1' | 2 => '2' | 3 => '3' | 4 => '4'
  | 5 => '5' | 6 => '6' | 7 => '7' | 8 => '8' | 9 => '9'
  | _ => 'x'

/-- Fuelled decimal rendering (the fuel bounds the number of digits). -/
def natDigitsFuel : Nat → Nat → PyStr
  | 0, _ => []
  | fuel + 1, n =>
    if n < 10 then [digitChar n] else natDigitsFuel fuel (n / 10) ++ [digitChar (n % 10)]

/-- Python `str(n)` for a natural number. -/
def pyStrOfNat (n : Nat) : PyStr := natDigitsFuel (n + 1) n

/-- `%02d` two-digit zero padding. -/
def pad2 (n : Nat) : PyStr := if n < 10 then ['0', digitChar n] else pyStrOfNat n

/-- Python `int(s)` on a digit string. -/
def parseNat (s : PyStr) : Nat := s.foldl (fun a c => a * 10 + (c.toNat - 48)) 0

theorem natDigitsFuel_step (fuel n : Nat) (hf : 1 ≤ fuel) (hn : 10 ≤ n) :
    natDigitsFuel fuel n = natDigitsFuel (fuel - 1) (n / 10) ++ [digitChar (n % 10)] := by
  obtain ⟨k, rfl⟩ : ∃ k, fuel = k + 1 := ⟨fuel - 1, by omega⟩
  rw [natDigitsFuel, if_neg (by omega)]
  simp

theorem natDigitsFuel_last (fuel n : Nat) (hf : 1 ≤ fuel) (hn : n < 10) :
    natDigitsFuel fuel n = [digitChar n] := by
  obtain ⟨k, rfl⟩ : ∃ k, fuel = k + 1 := ⟨fuel - 1, by omega⟩
  rw [natDigitsFuel, if_pos hn]

theorem pyStrOfNat_two (n : Nat) (h1 : 10 ≤ n) (h2 : n ≤ 99) :
    pyStrOfNat n = [digitChar (n / 10), digitChar (n % 10)] := by
  rw [pyStrOfNat, natDigitsFuel_step (n + 1) n (by omega) (by omega),
    natDigitsFuel_last _ _ (by omega) (by omega)]
  rfl

theorem pyStrOfNat_four (n : Nat) (h1 : 1000 ≤ n) (h2 : n ≤ 9999) :
    pyStrOfNat n = [digitChar (n / 1000), digitChar (n / 100 % 10),
                    digitChar (n / 10 % 10), digitChar (n % 10)] := by
  rw [pyStrOfNat, natDigitsFuel_step (n + 1) n (by omega) (by omega),
    natDigitsFuel_step _ _ (by omega) (by omega),
    natDigitsFuel_step _ _ (by omega) (by omega),
    natDigitsFuel_last _ _ (by omega) (by omega)]
  have e1 : n / 10 / 10 / 10 = n / 1000 := by omega
  have e2 : n / 10 / 10 % 10 = n / 100 % 10 := by omega
  rw [e1, e2]
  simp

theorem pad2_eq (n : Nat) (h : n ≤ 99) :
    pad2 n = [digitChar (n / 10), digitChar (n % 10)] := by
  by_cases h10 : n < 10
  · rw [pad2, if_pos h10]
    have : n / 10 = 0 := by omega
    have hm : n % 10 = n := by omega
    rw [this, hm]
    rfl
  · rw [pad2, if_neg h10]
    exact pyStrOfNat_two n (by omega) h

theorem digitVal_digitChar (k : Nat) (h : k ≤ 9) : (digitChar k).toNat - 48 = k := by
  interval_cases k <;> decide

theorem parseNat_two (a b : Nat) (ha : a ≤ 9) (hb : b ≤ 9) :
    parseNat [digitChar a, digitChar b] = a * 10 + b := by
  simp only [parseNat, List.foldl_cons, List.foldl_nil]
  rw [digitVal_digitChar a ha, digitVal_digitChar b hb]
  omega

/-!
### Dates: model of `datetime` values and ISO sorting

`sorted(iso_dates)[0]` in the source sorts ISO strings; Python's `sorted` on a
total order is extensionally a plain insertion sort, and string comparison is
lexicographic on characters.
-/

/-- A calendar date, the model of a parsed `datetime`. -/
structure YMD where
  y : Nat
  m : Nat
  d : Nat
deriving DecidableEq

/-- Chronological (lexicographic year/month/day) order on dates. -/
def ymdLe (a b : YMD) : Bool :=
  a.y < b.y || (a.y = b.y && (a.m < b.m || (a.m = b.m && a.d ≤ b.d)))

/-- Binary chronological minimum. -/
def ymdMin (a b : YMD) : YMD := if ymdLe a b then a else b

/-- Chronologically earliest element of a list of dates. -/
def minYMD : List YMD → Option YMD
  | [] => none
  | c :: cs => some (cs.foldl ymdMin c)

theorem ymdLe_refl (a : YMD) : ymdLe a a = true := by simp [ymdLe]

theorem ymdLe_trans (a b c : YMD) (h1 : ymdLe a b = true) (h2 : ymdLe b c = true) :
    ymdLe a c = true := by
  simp only [ymdLe, Bool.or_eq_true, Bool.and_eq_true, decide_eq_true_eq] at h1 h2 ⊢
  omega

theorem ymdLe_total (a b : YMD) (h : ¬ ymdLe a b = true) : ymdLe b a = true := by
  simp only [ymdLe, Bool.or_eq_true, Bool.and_eq_true, decide_eq_true_eq] at h ⊢
  omega

theorem foldl_ymdMin_mem (cs : List YMD) : ∀ c, cs.foldl ymdMin c ∈ c :: cs := by
  induction cs with
  | nil => intro c; simp
  | cons x xs ih =>
    intro c
    rw [List.foldl_cons]
    have hmem := ih (ymdMin c x)
    have hcx : ymdMin c x = c ∨ ymdMin c x = x := by
      unfold ymdMin
      by_cases h : ymdLe c x = true
      · left; simp [h]
      · right; simp [h]
    rcases List.mem_cons.mp hmem with heq | hmem2
    · rw [heq]
      rcases hcx with h | h <;> rw [h] <;> simp
    · simp [hmem2]

theorem foldl_ymdMin_le (cs : List YMD) :
    ∀ c x, x ∈ c :: cs → ymdLe (cs.foldl ymdMin c) x = true := by
  induction cs with
  | nil =>
    intro c x hx
    rcases List.mem_cons.mp hx with rfl | h
    · exact ymdLe_refl x
    · exact absurd h (by simp)
  | cons z zs ih =>
    intro c x hx
    rw [List.foldl_cons]
    have hminle : ymdLe (ymdMin c z) c = true ∧ ymdLe (ymdMin c z) z = true := by
      unfold ymdMin
      by_cases h : ymdLe c z = true
      · simp [h, ymdLe_refl]
      · simp [h, ymdLe_refl, ymdLe_total c z h]
    rcases List.mem_cons.mp hx with heq | hx2
    · rw [heq]
      exact ymdLe_trans _ _ _ (ih (ymdMin c z) (ymdMin c z) (by simp)) hminle.1
    rcases List.mem_cons.mp hx2 with heq2 | hx3
    · rw [heq2]
      exact ymdLe_trans _ _ _ (ih (ymdMin c z) (ymdMin c z) (by simp)) hminle.2
    · exact ih (ymdMin c z) x (by simp [hx3])

/-- Python string comparison: lexicographic on characters. -/
def strLe : PyStr → PyStr → Bool
  | [], _ => true
  | _ :: _, [] => false
  | a :: as, b :: bs => if a < b then true else if a = b then strLe as bs else false

theorem strLe_refl (s : PyStr) : strLe s s = true := by
  induction s with
  | nil => rfl
  | cons a as ih => simp [strLe, ih]

theorem strLe_trans : ∀ a b c : PyStr, strLe a b = true → strLe b c = true →
    strLe a c = true
  | [], _, _, _, _ => rfl
  | _ :: _, [], _, h1, _ => absurd h1 (by simp [strLe])
  | _ :: _, _ :: _, [], _, h2 => absurd h2 (by simp [strLe])
  | a :: as, b :: bs, c :: cs, h1, h2 => by
    simp only [strLe] at h1 h2 ⊢
    by_cases hab : a < b
    · by_cases hbc : b < c
      · simp [lt_trans hab hbc]
      · simp only [if_pos hab] at h1
        by_cases hbc2 : b = c
        · subst hbc2; simp [hab]
        · simp [hbc, hbc2] at h2
    · by_cases hab2 : a = b
      · subst hab2
        simp only [if_neg hab, if_pos rfl] at h1
        by_cases hbc : a < c
        · simp [hbc]
        · by_cases hbc2 : a = c
          · subst hbc2
            simp only [if_neg hbc, if_pos rfl] at h2 ⊢
            exact strLe_trans as bs cs h1 h2
          · simp [hbc, hbc2] at h2
      · simp [hab, hab2] at h1

theorem strLe_total : ∀ a b : PyStr, ¬ strLe a b = true → strLe b a = true
  | [], _, h => absurd rfl h
  | _ :: _, [], _ => rfl
  | a :: as, b :: bs, h => by
    simp only [strLe] at h ⊢
    by_cases hab : a < b
    · simp [hab] at h
    · by_cases hab2 : a = b
      · subst hab2
        simp only [if_neg hab, if_pos rfl] at h
        simp only [lt_irrefl, if_neg, if_pos rfl]
        simp
        exact strLe_total as bs h
      · have : b < a := by
          rcases lt_trichotomy a b with h1 | h1 | h1
          · exact absurd h1 hab
          · exact absurd h1 hab2
          · exact h1
        simp [this]

theorem strLe_antisymm : ∀ a b : PyStr, strLe a b = true → strLe b a = true → a = b
  | [], [], _, _ => rfl
  | [], _ :: _, _, h2 => absurd h2 (by simp [strLe])
  | _ :: _, [], h1, _ => absurd h1 (by simp [strLe])
  | a :: as, b :: bs, h1, h2 => by
    simp only [strLe] at h1 h2
    by_cases hab : a < b
    · have : ¬ b < a := lt_asymm hab
      simp [this, show b ≠ a from fun e => absurd (e ▸ hab) (lt_irrefl b)] at h2
    · by_cases hab2 : a = b
      · subst hab2
        simp only [if_neg hab, if_pos rfl] at h1 h2
        rw [strLe_antisymm as bs h1 h2]
      · simp [hab, hab2] at h1

/-- Insertion into a sorted list: the model of Python `sorted` on a total
order (any correct sort yields the same result). -/
def insertSorted (x : PyStr) : List PyStr → List PyStr
  | [] => [x]
  | y :: ys => if strLe x y then x :: y :: ys else y :: insertSorted x ys

/-- Python `sorted` on strings. -/
def pySorted : List PyStr → List PyStr
  | [] => []
  | x :: xs => insertSorted x (pySorted xs)

theorem pySorted_nil_iff : ∀ l : List PyStr, pySorted l = [] ↔ l = [] := by
  intro l
  cases l with
  | nil => simp [pySorted]
  | cons x xs =>
    simp only [pySorted]
    constructor
    · intro h
      exfalso
      cases hs : pySorted xs with
      | nil => rw [hs] at h; simp [insertSorted] at h
      | cons y ys =>
        rw [hs] at h
        unfold insertSorted at h
        by_cases hxy : strLe x y = true
        · simp [hxy] at h
        · simp [hxy] at h
    · intro h; exact absurd h (by simp)

theorem pySorted_head_le :
    ∀ (l : List PyStr) (x : PyStr) (rest : List PyStr),
      pySorted l = x :: rest → ∀ z ∈ l, strLe x z = true := by
  intro l
  induction l with
  | nil => intro x rest h; simp [pySorted] at h
  | cons a as ih =>
    intro x rest h z hz
    simp only [pySorted] at h
    cases hs : pySorted as with
    | nil =>
      rw [hs] at h
      have has : as = [] := (pySorted_nil_iff as).mp hs
      subst has
      simp only [insertSorted] at h
      injection h with h1 _
      subst h1
      rcases List.mem_cons.mp hz with rfl | h2
      · exact strLe_refl z
      · exact absurd h2 (by simp)
    | cons y ys =>
      rw [hs] at h
      unfold insertSorted at h
      by_cases hxy : strLe a y = true
      · rw [if_pos hxy] at h
        injection h with h1 _
        subst h1
        rcases List.mem_cons.mp hz with rfl | h2
        · exact strLe_refl z
        · exact strLe_trans _ _ _ hxy (ih y ys hs z h2)
      · rw [if_neg hxy] at h
        injection h with h1 _
        subst h1
        rcases List.mem_cons.mp hz with rfl | h2
        · exact strLe_total _ _ hxy
        · exact ih y ys hs z h2

theorem mem_insertSorted (x z : PyStr) :
    ∀ l : List PyStr, z ∈ insertSorted x l ↔ z = x ∨ z ∈ l := by
  intro l
  induction l with
  | nil => simp [insertSorted]
  | cons y ys ih =>
    unfold insertSorted
    by_cases hxy : strLe x y = true
    · rw [if_pos hxy]
      simp
    · rw [if_neg hxy]
      simp only [List.mem_cons, ih]
      tauto

theorem mem_pySorted (z : PyStr) : ∀ l : List PyStr, z ∈ pySorted l ↔ z ∈ l := by
  intro l
  induction l with
  | nil => simp [pySorted]
  | cons y ys ih =>
    simp only [pySorted, mem_insertSorted, ih, List.mem_cons]

/-- `dt.strftime("%Y-%m-%d")`: unpadded year (all years this pipeline produces
have four digits), zero-padded month and day. -/
def fmtYMD (x : YMD) : PyStr := pyStrOfNat x.y ++ '-' :: (pad2 x.m ++ '-' :: pad2 x.d)

theorem digitChar_lt (i j : Nat) (hi : i ≤ 9) (hj : j ≤ 9) (h : i < j) :
    digitChar i < digitChar j := by
  revert h
  interval_cases i <;> interval_cases j <;> decide

theorem strLe_cons_eq (c : Char) (s1 s2 : PyStr) :
    strLe (c :: s1) (c :: s2) = strLe s1 s2 := by
  simp [strLe]

theorem strLe_cons_lt (a b : Char) (h : a < b) (s1 s2 : PyStr) :
    strLe (a :: s1) (b :: s2) = true := by
  simp [strLe, h]

theorem strLe_digits2 (x y : Nat) (hx : x ≤ 99) (hy : y ≤ 99) (s1 s2 : PyStr)
    (hle : x ≤ y) (hcont : x = y → strLe s1 s2 = true) :
    strLe (digitChar (x / 10) :: digitChar (x % 10) :: s1)
          (digitChar (y / 10) :: digitChar (y % 10) :: s2) = true := by
  rcases Nat.lt_or_ge (x / 10) (y / 10) with h1 | h1
  · exact strLe_cons_lt _ _ (digitChar_lt _ _ (by omega) (by omega) h1) _ _
  · have e1 : x / 10 = y / 10 := by omega
    rw [e1, strLe_cons_eq]
    rcases Nat.lt_or_ge (x % 10) (y % 10) with h2 | h2
    · exact strLe_cons_lt _ _ (digitChar_lt _ _ (by omega) (by omega) h2) _ _
    · have e2 : x % 10 = y % 10 := by omega
      rw [e2, strLe_cons_eq]
      exact hcont (by omega)

theorem fmtYMD_eq (a : YMD) (hy1 : 1000 ≤ a.y) (hy2 : a.y ≤ 9999)
    (hm : a.m ≤ 99) (hd : a.d ≤ 99) :
    fmtYMD a =
      digitChar (a.y / 100 / 10) :: digitChar (a.y / 100 % 10) ::
      digitChar (a.y % 100 / 10) :: digitChar (a.y % 100 % 10) ::
      '-' :: digitChar (a.m / 10) :: digitChar (a.m % 10) ::
      '-' :: digitChar (a.d / 10) :: digitChar (a.d % 10) :: [] := by
  rw [fmtYMD, pyStrOfNat_four a.y hy1 hy2, pad2_eq a.m hm, pad2_eq a.d hd]
  have e1 : a.y / 100 / 10 = a.y / 1000 := by omega
  have e3 : a.y % 100 / 10 = a.y / 10 % 10 := by omega
  have e4 : a.y % 100 % 10 = a.y % 10 := by omega
  rw [e1, e3, e4]
  rfl

/-- Monotonicity of ISO formatting: on four-digit years, the lexicographic
string order agrees with the chronological order, which is what makes
`sorted(iso_dates)[0]` the chronologically earliest candidate. -/
theorem fmt_mono (a b : YMD)
    (ha1 : 1000 ≤ a.y) (ha2 : a.y ≤ 9999) (ha3 : a.m ≤ 99) (ha4 : a.d ≤ 99)
    (hb1 : 1000 ≤ b.y) (hb2 : b.y ≤ 9999) (hb3 : b.m ≤ 99) (hb4 : b.d ≤ 99)
    (h : ymdLe a b = true) :
    strLe (fmtYMD a) (fmtYMD b) = true := by
  simp only [ymdLe, Bool.or_eq_true, Bool.and_eq_true, decide_eq_true_eq] at h
  rw [fmtYMD_eq a ha1 ha2 ha3 ha4, fmtYMD_eq b hb1 hb2 hb3 hb4]
  apply strLe_digits2 (a.y / 100) (b.y / 100) (by omega) (by omega) _ _ (by omega)
  intro hq1
  apply strLe_digits2 (a.y % 100) (b.y % 100) (by omega) (by omega) _ _ (by omega)
  intro hq2
  have hy : a.y = b.y := by omega
  rw [strLe_cons_eq]
  apply strLe_digits2 a.m b.m ha3 hb3 _ _ (by omega)
  intro hq3
  rw [strLe_cons_eq]
  apply strLe_digits2 a.d b.d ha4 hb4 _ _ (by omega)
  intro _
  rfl

/-!
### DateExtractor (src/extractors/dates.py): regex scanners

`RE_NUMERIC[0] = \b(\d{1,2}) SEP (\d{1,2}) SEP (\d{2,4})\b` and
`RE_NUMERIC[1] = \b(\d{4}) SEP (\d{1,2}) SEP (\d{1,2})\b` (SEP the class of '.', '-', '/') matching: a
digit group followed by a separator must exhaust its digit run (a shorter
greedy take leaves a digit where the separator is required), and the final
group must exhaust its run and stand at a word boundary.  `findall` scans left
to right, resuming after each match.
-/

/-- Leading `\b` before a word character, given the preceding character. -/
def boundaryOkP : Option Char → Bool
  | none => true
  | some p => !isWord p

/-- The separator class: '.', '-' or '/'. -/
def sepDMY (c : Char) : Bool := c = '.' || c = '-' || c = '/'

/-- The month-letter class `[A-Za-zÄÖÜäöü]`. -/
def isLetterDE (c : Char) : Bool :=
  ('A' ≤ c && c ≤ 'Z') || ('a' ≤ c && c ≤ 'z') ||
  c = 'Ä' || c = 'Ö' || c = 'Ü' || c = 'ä' || c = 'ö' || c = 'ü'

/-- Match of `RE_NUMERIC[0]` at the head of `cs`; returns the groups, the last
consumed character and the rest. -/
def matchNum1At (prev : Option Char) (cs : PyStr) :
    Option ((PyStr × PyStr × PyStr) × Char × PyStr) :=
  if !boundaryOkP prev then none else
  let d := cs.takeWhile isDigitC
  if d.length < 1 || 2 < d.length then none else
  match cs.drop d.length with
  | c1 :: cs1 =>
    if !sepDMY c1 then none else
    let m := cs1.takeWhile isDigitC
    if m.length < 1 || 2 < m.length then none else
    match cs1.drop m.length with
    | c2 :: cs2 =>
      if !sepDMY c2 then none else
      let y := cs2.takeWhile isDigitC
      if y.length < 2 || 4 < y.length then none else
      match cs2.drop y.length with
      | [] => some ((d, m, y), y.getLastD 'x', [])
      | e :: rest =>
        if isWord e then none else some ((d, m, y), y.getLastD 'x', e :: rest)
    | [] => none
  | [] => none

/-- Match of `RE_NUMERIC[1] = \b(\d{4}) SEP (\d{1,2}) SEP (\d{1,2})\b`. -/
def matchNum2At (prev : Option Char) (cs : PyStr) :
    Option ((PyStr × PyStr × PyStr) × Char × PyStr) :=
  if !boundaryOkP prev then none else
  let y := cs.takeWhile isDigitC
  if y.length ≠ 4 then none else
  match cs.drop y.length with
  | c1 :: cs1 =>
    if !sepDMY c1 then none else
    let m := cs1.takeWhile isDigitC
    if m.length < 1 || 2 < m.length then none else
    match cs1.drop m.length with
    | c2 :: cs2 =>
      if !sepDMY c2 then none else
      let d := cs2.takeWhile isDigitC
      if d.length < 1 || 2 < d.length then none else
      match cs2.drop d.length with
      | [] => some ((y, m, d), d.getLastD 'x', [])
      | e :: rest =>
        if isWord e then none else some ((y, m, d), d.getLastD 'x', e :: rest)
    | [] => none
  | [] => none

/-- Fuelled `findall` scanner for the triple-group patterns. -/
def scanTriples (matchAt : Option Char → PyStr → Option ((PyStr × PyStr × PyStr) × Char × PyStr)) :
    Nat → Option Char → PyStr → List (PyStr × PyStr × PyStr)
  | 0, _, _ => []
  | _ + 1, _, [] => []
  | fuel + 1, prev, c :: cs =>
    match matchAt prev (c :: cs) with
    | some (g, pc, rest) => g :: scanTriples matchAt fuel (some pc) rest
    | none => scanTriples matchAt fuel (some c) cs

/-- `RE_NUMERIC[0].findall(text)`. -/
def num1Findall (s : PyStr) : List (PyStr × PyStr × PyStr) :=
  scanTriples matchNum1At s.length none s

/-- `RE_NUMERIC[1].findall(text)`. -/
def num2Findall (s : PyStr) : List (PyStr × PyStr × PyStr) :=
  scanTriples matchNum2At s.length none s

/-- A `\b` between the previous character and the head of the string. -/
def boundaryAt (prev : Char) : PyStr → Bool
  | [] => isWord prev
  | c :: _ => isWord prev != isWord c

/-- One optional-literal step `c?` of the regex: the consuming alternative is
tried before the non-consuming one. -/
def optTryChar (ch : Char) (st : Char × PyStr) : List (Char × PyStr) :=
  match st with
  | (prev, cs) =>
    match cs with
    | c :: rest => if c = ch then [(c, rest), (prev, cs)] else [(prev, cs)]
    | [] => [(prev, cs)]

/-- Greedy `\s*` with backtracking: all split points, longest first. -/
def wsStates (st : Char × PyStr) : List (Char × PyStr) :=
  match st with
  | (prev, cs) =>
    let w := (cs.takeWhile isWs).length
    (List.range (w + 1)).map fun i =>
      let k := w - i
      ((cs.take k).getLastD prev, cs.drop k)

/-- One greedy attempt at `(\d{2,4})` of exactly `k` digits followed by `\b`. -/
def yearTryK (cs : PyStr) (k : Nat) : Option (PyStr × Char × PyStr) :=
  if k ≤ (cs.takeWhile isDigitC).length then
    let rest := cs.drop k
    let ok := match rest with | [] => true | e :: _ => !isWord e
    if ok then some (cs.take k, (cs.take k).getLastD 'x', rest) else none
  else none

/-- `(\d{2,4})?\b` after the optional punctuation: greedy year of 4, 3, 2
digits, then the year-absent alternative requiring a plain `\b`. -/
def yearAttempt : Char × PyStr → Option (PyStr × Char × PyStr)
  | (prev, cs) =>
    match yearTryK cs 4 with
    | some r => some r
    | none =>
      match yearTryK cs 3 with
      | some r => some r
      | none =>
        match yearTryK cs 2 with
        | some r => some r
        | none => if boundaryAt prev cs then some ([], prev, cs) else none

/-- Backtracking states of the tail `\.?,?\s*` after the month group, in the
regex's try order. -/
def textualTailStates (st : Char × PyStr) : List (Char × PyStr) :=
  (optTryChar '.' st).flatMap fun st1 => (optTryChar ',' st1).flatMap wsStates

/-- Match of
`RE_TEXTUAL = \b(\d{1,2}) SEP? \s*([A-Za-zÄÖÜäöü]{3,12})\.?,?\s*(\d{2,4})?\b`
at the head of `cs`.  The day group must exhaust its digit run (runs of 3+
digits reject, since neither the separator, whitespace nor a month letter is a
digit); consuming an available separator commits (if the rest then fails it
also fails unconsumed); `\s*` before the month is deterministic (letters are
not whitespace); the month group must be the maximal letter run, of length
3–12; the tail is tried through its backtracking states. -/
def matchTextualAt (prev : Option Char) (cs : PyStr) :
    Option ((PyStr × PyStr × PyStr) × Char × PyStr) :=
  if !boundaryOkP prev then none else
  let d := cs.takeWhile isDigitC
  if d.length < 1 || 2 < d.length then none else
  let cs1 := cs.drop d.length
  let cs1b :=
    match cs1 with
    | c :: rest => if sepDMY c then rest else cs1
    | [] => cs1
  let cs2 := cs1b.dropWhile isWs
  let mr := cs2.takeWhile isLetterDE
  if mr.length < 3 || 12 < mr.length then none else
  let cs3 := cs2.drop mr.length
  match (textualTailStates (mr.getLastD 'x', cs3)).findSome? yearAttempt with
  | some (yr, pc, rest) => some ((d, mr, yr), pc, rest)
  | none => none

/-- `RE_TEXTUAL.findall(text)`. -/
def textualFindall (s : PyStr) : List (PyStr × PyStr × PyStr) :=
  scanTriples matchTextualAt s.length none s

/-!
### DateExtractor: month table, year fixing, parsing
-/

/-- `MONTH_MAP`, in the source's insertion order (Python dicts preserve it). -/
def monthMap : List (PyStr × PyStr) :=
  [(pyOf "jan", pyOf "January"), (pyOf "januar", pyOf "January"),
   (pyOf "feb", pyOf "February"), (pyOf "februar", pyOf "February"),
   (pyOf "mär", pyOf "March"), (pyOf "maerz", pyOf "March"), (pyOf "märz", pyOf "March"),
   (pyOf "mar", pyOf "March"), (pyOf "mrz", pyOf "March"),
   (pyOf "apr", pyOf "April"), (pyOf "april", pyOf "April"),
   (pyOf "mai", pyOf "May"),
   (pyOf "jun", pyOf "June"), (pyOf "juni", pyOf "June"),
   (pyOf "jul", pyOf "July"), (pyOf "juli", pyOf "July"),
   (pyOf "aug", pyOf "August"), (pyOf "august", pyOf "August"),
   (pyOf "sep", pyOf "September"), (pyOf "sept", pyOf "September"),
   (pyOf "september", pyOf "September"),
   (pyOf "okt", pyOf "October"), (pyOf "oktober", pyOf "October"),
   (pyOf "oct", pyOf "October"),
   (pyOf "nov", pyOf "November"), (pyOf "november", pyOf "November"),
   (pyOf "dez", pyOf "December"), (pyOf "dezember", pyOf "December"),
   (pyOf "dec", pyOf "December")]

/-- `raw.lower().replace(".", "").replace("0", "o")`. -/
def normMonthKey (raw : PyStr) : PyStr :=
  ((pyLower raw).filter fun c => c ≠ '.').map fun c => if c = '0' then 'o' else c

/-- `DateExtractor._normalize_month`: exact key, then 3-letter prefix, then
2-letter prefix, scanning the table in order. -/
def normalizeMonth (raw : PyStr) : Option PyStr :=
  let r := normMonthKey raw
  if monthMap.any fun kv => kv.1 == r then some r
  else
    match monthMap.find? fun kv => r.take 3 == kv.1.take 3 with
    | some kv => some kv.1
    | none =>
      match monthMap.find? fun kv => r.take 2 == kv.1.take 2 with
      | some kv => some kv.1
      | none => none

/-- `MONTH_MAP[month_key]` (total here; the key always comes from the map). -/
def monthNameOf (key : PyStr) : PyStr :=
  ((monthMap.find? fun kv => kv.1 == key).map fun kv => kv.2).getD []

/-- Modelled from the spec: month-name recognition inside the external
`dateutil.parser.parse` on the English month names this module feeds it. -/
def monthNum (name : PyStr) : Nat :=
  if name == pyOf "January" then 1 else if name == pyOf "February" then 2
  else if name == pyOf "March" then 3 else if name == pyOf "April" then 4
  else if name == pyOf "May" then 5 else if name == pyOf "June" then 6
  else if name == pyOf "July" then 7 else if name == pyOf "August" then 8
  else if name == pyOf "September" then 9 else if name == pyOf "October" then 10
  else if name == pyOf "November" then 11 else if name == pyOf "December" then 12
  else 0

/-- Proleptic-Gregorian leap year, as used by `datetime`. -/
def isLeap (y : Nat) : Bool := y % 4 = 0 && (y % 100 ≠ 0 || y % 400 = 0)

/-- Days in a month, as validated by `datetime`. -/
def daysInMonth (y m : Nat) : Nat :=
  if m = 2 then (if isLeap y then 29 else 28)
  else if m = 4 || m = 6 || m = 9 || m = 11 then 30 else 31

/-- A `datetime(y, m, d)` value when the triple is a valid calendar date in
datetime's year range, else `None` (the parse raises and `_safe_parse`
swallows it). -/
def mkValidDate (y m d : Nat) : Option YMD :=
  if 1 ≤ y ∧ y ≤ 9999 ∧ 1 ≤ m ∧ m ≤ 12 ∧ 1 ≤ d ∧ d ≤ daysInMonth y m then
    some ⟨y, m, d⟩
  else none

/-- Modelled from the spec: `_safe_parse` applies the external
`dateutil.parser.parse` to `f"{day} {month_name} {year}"`; the spec says
unparseable candidates are discarded silently. -/
def safeParseTextual (day : Nat) (monthName : PyStr) (y : Nat) : Option YMD :=
  mkValidDate y (monthNum monthName) day

/-- Modelled from the spec: `_safe_parse(f"{d}-{m}-{y}")` with
`dayfirst=True` — day-first disambiguation, falling back to the swapped
reading when the middle value cannot be a month, unparseable dates dropped. -/
def safeParseDMY (a b y : Nat) : Option YMD :=
  if b ≤ 12 then mkValidDate y b a
  else mkValidDate y a b

/-- `DateExtractor._fix_year`, with `int(str(invoice_year)[:2] + f"{y:02d}")`
rendered by the same string operations. -/
def fixYear (y : Nat) (iy : Option Nat) : Option Nat :=
  if 1900 ≤ y then some y
  else if y < 100 then
    match iy with
    | some n =>
      if n ≠ 0 then some (parseNat ((pyStrOfNat n).take 2 ++ pad2 y))
      else some (2000 + y)
    | none => some (2000 + y)
  else none

/-- The invoice years the orchestrator can supply: none, or a four-digit year
(`_infer_invoice_year` matches `20\d{2}`). -/
def SaneYear (iy : Option Nat) : Prop :=
  iy = none ∨ ∃ n, iy = some n ∧ 1000 ≤ n ∧ n ≤ 9999

/-- `DateExtractor.extract` candidate pool: textual pass then the two numeric
passes, in source order. -/
def dateCandidates (text : PyStr) (iy : Option Nat) : List YMD :=
  let textual := (textualFindall text).filterMap fun g =>
    match normalizeMonth g.2.1 with
    | none => none
    | some key =>
      match (if g.2.2.isEmpty then iy else fixYear (parseNat g.2.2) iy) with
      | none => none
      | some 0 => none
      | some yv => safeParseTextual (parseNat g.1) (monthNameOf key) yv
  let numeric1 := (num1Findall text).filterMap fun g =>
    match fixYear (parseNat g.2.2) iy with
    | none => none
    | some 0 => none
    | some yv => safeParseDMY (parseNat g.1) (parseNat g.2.1) yv
  let numeric2 := (num2Findall text).filterMap fun g =>
    match fixYear (parseNat g.1) iy with
    | none => none
    | some 0 => none
    | some yv => safeParseDMY (parseNat g.2.2) (parseNat g.2.1) yv
  textual ++ numeric1 ++ numeric2

/-- `DateExtractor.extract`: ISO-format all candidates, sort, take the head. -/
def dateExtract (text : PyStr) (iy : Option Nat) : Option PyStr :=
  if (dateCandidates text iy).isEmpty then none
  else (pySorted ((dateCandidates text iy).map fmtYMD)).head?

/-!
### C4 lemmas: all candidate years have four digits
-/

theorem parseNat_append_pad2 (a : PyStr) (y : Nat) (hy : y ≤ 99) :
    parseNat (a ++ pad2 y) = parseNat a * 100 + y := by
  rw [pad2_eq y hy]
  show List.foldl (fun x c => x * 10 + (c.toNat - 48)) 0
      (a ++ [digitChar (y / 10), digitChar (y % 10)]) = parseNat a * 100 + y
  rw [List.foldl_append]
  simp only [List.foldl_cons, List.foldl_nil]
  rw [digitVal_digitChar (y / 10) (by omega), digitVal_digitChar (y % 10) (by omega)]
  show (parseNat a * 10 + y / 10) * 10 + y % 10 = parseNat a * 100 + y
  omega

theorem centuryVal_eq (n : Nat) (h1 : 1000 ≤ n) (h2 : n ≤ 9999) :
    parseNat ((pyStrOfNat n).take 2) = n / 100 := by
  rw [pyStrOfNat_four n h1 h2]
  show parseNat [digitChar (n / 1000), digitChar (n / 100 % 10)] = n / 100
  rw [parseNat_two _ _ (by omega) (by omega)]
  omega

theorem fixYear_ge (y : Nat) (iy : Option Nat) (hs : SaneYear iy) (Y : Nat)
    (h : fixYear y iy = some Y) : 1000 ≤ Y := by
  unfold fixYear at h
  by_cases h19 : 1900 ≤ y
  · rw [if_pos h19] at h
    injection h with h2
    omega
  · rw [if_neg h19] at h
    by_cases h100 : y < 100
    · rw [if_pos h100] at h
      rcases hs with rfl | ⟨n, rfl, hn1, hn2⟩
      · injection h with h2; omega
      · simp only [] at h
        rw [if_pos (by omega)] at h
        injection h with h2
        rw [parseNat_append_pad2 _ y (by omega), centuryVal_eq n hn1 hn2] at h2
        have : 10 ≤ n / 100 := by omega
        omega
    · rw [if_neg h100] at h
      exact absurd h (by simp)

theorem daysInMonth_le (y m : Nat) : daysInMonth y m ≤ 31 := by
  unfold daysInMonth
  by_cases h2 : m = 2
  · rw [if_pos h2]
    by_cases hl : isLeap y = true
    · rw [if_pos hl]; omega
    · rw [if_neg hl]; omega
  · rw [if_neg h2]
    by_cases h4 : (m = 4 || m = 6 || m = 9 || m = 11) = true
    · rw [if_pos h4]; omega
    · rw [if_neg h4]

/-- The bounds a candidate produced by `mkValidDate y _ _` satisfies. -/
def GoodYMD (c : YMD) : Prop :=
  1000 ≤ c.y ∧ c.y ≤ 9999 ∧ 1 ≤ c.m ∧ c.m ≤ 12 ∧ 1 ≤ c.d ∧ c.d ≤ 31

theorem mkValidDate_good (y m d : Nat) (c : YMD) (hy : 1000 ≤ y)
    (h : mkValidDate y m d = some c) : GoodYMD c := by
  unfold mkValidDate at h
  by_cases hc : 1 ≤ y ∧ y ≤ 9999 ∧ 1 ≤ m ∧ m ≤ 12 ∧ 1 ≤ d ∧ d ≤ daysInMonth y m
  · rw [if_pos hc] at h
    injection h with h2
    have hd31 := daysInMonth_le y m
    rw [← h2]
    show 1000 ≤ y ∧ y ≤ 9999 ∧ 1 ≤ m ∧ m ≤ 12 ∧ 1 ≤ d ∧ d ≤ 31
    exact ⟨hy, by omega, by omega, by omega, by omega, by omega⟩
  · rw [if_neg hc] at h
    exact absurd h (by simp)

theorem safeParseDMY_good (a b y : Nat) (c : YMD) (hy : 1000 ≤ y)
    (h : safeParseDMY a b y = some c) : GoodYMD c := by
  unfold safeParseDMY at h
  by_cases hb : b ≤ 12
  · rw [if_pos hb] at h; exact mkValidDate_good _ _ _ _ hy h
  · rw [if_neg hb] at h; exact mkValidDate_good _ _ _ _ hy h

theorem dateCandidates_good (text : PyStr) (iy : Option Nat) (hs : SaneYear iy) :
    ∀ c ∈ dateCandidates text iy, GoodYMD c := by
  intro c hc
  unfold dateCandidates at hc
  simp only [List.mem_append] at hc
  rcases hc with (hc | hc) | hc
  · obtain ⟨g, -, hg⟩ := List.mem_filterMap.mp hc
    cases hmk : normalizeMonth g.2.1 with
    | none => rw [hmk] at hg; exact absurd hg (by simp)
    | some key =>
      rw [hmk] at hg
      cases hyv : (if g.2.2.isEmpty then iy else fixYear (parseNat g.2.2) iy) with
      | none => rw [hyv] at hg; exact absurd hg (by simp)
      | some yv =>
        rw [hyv] at hg
        have hyge : 1000 ≤ yv ∨ yv = 0 := by
          by_cases he : g.2.2.isEmpty = true
          · rw [if_pos he] at hyv
            rcases hs with rfl | ⟨n, rfl, hn1, hn2⟩
            · exact absurd hyv (by simp)
            · left; injection hyv with h2; omega
          · rw [if_neg he] at hyv
            left; exact fixYear_ge _ iy hs yv hyv
        cases yv with
        | zero => exact absurd hg (by simp)
        | succ k =>
          have : 1000 ≤ k + 1 := by
            rcases hyge with h | h
            · exact h
            · exact absurd h (by omega)
          exact mkValidDate_good _ _ _ _ this hg
  · obtain ⟨g, -, hg⟩ := List.mem_filterMap.mp hc
    cases hyv : fixYear (parseNat g.2.2) iy with
    | none => rw [hyv] at hg; exact absurd hg (by simp)
    | some yv =>
      rw [hyv] at hg
      have hyge := fixYear_ge _ iy hs yv hyv
      cases yv with
      | zero => exact absurd hg (by simp)
      | succ k => exact safeParseDMY_good _ _ _ _ hyge hg
  · obtain ⟨g, -, hg⟩ := List.mem_filterMap.mp hc
    cases hyv : fixYear (parseNat g.1) iy with
    | none => rw [hyv] at hg; exact absurd hg (by simp)
    | some yv =>
      rw [hyv] at hg
      have hyge := fixYear_ge _ iy hs yv hyv
      cases yv with
      | zero => exact absurd hg (by simp)
      | succ k => exact safeParseDMY_good _ _ _ _ hyge hg

/-- C4: under any invoice year the orchestrator can supply, `extract` returns
exactly the chronologically earliest valid candidate of the textual and
numeric passes (ISO-formatted), and `none` when there is no candidate. -/
theorem date_earliest (text : PyStr) (iy : Option Nat) (hs : SaneYear iy) :
    dateExtract text iy = (minYMD (dateCandidates text iy)).map fmtYMD := by
  unfold dateExtract minYMD
  cases hc : dateCandidates text iy with
  | nil => simp
  | cons c cs =>
    simp only [List.isEmpty_cons, Bool.false_eq_true, if_false]
    obtain ⟨x, rest, hx⟩ : ∃ x rest, pySorted ((c :: cs).map fmtYMD) = x :: rest := by
      cases hps : pySorted ((c :: cs).map fmtYMD) with
      | nil =>
        have := (pySorted_nil_iff _).mp hps
        exact absurd this (by simp)
      | cons x r => exact ⟨x, r, rfl⟩
    rw [hx]
    have hgood : ∀ u ∈ c :: cs, GoodYMD u := by
      have := dateCandidates_good text iy hs
      rw [hc] at this
      exact this
    have hxmem : x ∈ (c :: cs).map fmtYMD :=
      (mem_pySorted x _).mp (by rw [hx]; simp)
    have hxlow : ∀ z ∈ (c :: cs).map fmtYMD, strLe x z = true :=
      pySorted_head_le _ x rest hx
    have hwmem : cs.foldl ymdMin c ∈ c :: cs := foldl_ymdMin_mem cs c
    have hwgood := hgood _ hwmem
    have hwfmt : fmtYMD (cs.foldl ymdMin c) ∈ (c :: cs).map fmtYMD :=
      List.mem_map_of_mem fmtYMD hwmem
    have hwlow : ∀ z ∈ (c :: cs).map fmtYMD, strLe (fmtYMD (cs.foldl ymdMin c)) z = true := by
      intro z hz
      obtain ⟨u, hu, rfl⟩ := List.mem_map.mp hz
      obtain ⟨u1, u2, u3, u4, u5, u6⟩ := hgood u hu
      obtain ⟨w1, w2, w3, w4, w5, w6⟩ := hwgood
      exact fmt_mono _ u w1 w2 (by omega) (by omega) u1 u2 (by omega) (by omega)
        (foldl_ymdMin_le cs c u hu)
    have heq : x = fmtYMD (cs.foldl ymdMin c) :=
      strLe_antisymm _ _ (hxlow _ hwfmt) (hwlow _ hxmem)
    rw [List.head?_cons, heq]
    rfl

/-- Witness for C4: a block containing exactly the two dates "27.11.2025" and
"30.11.2025" yields "2025-11-27". -/
theorem date_earliest_witness :
    dateExtract (pyOf "27.11.2025\n30.11.2025") none = some (pyOf "2025-11-27") :=
  (date_earliest (pyOf "27.11.2025\n30.11.2025") none (Or.inl rfl)).trans (by decide)

/-!
### WeightExtractor (src/extractors/weights.py)

Exact decimal values are modelled as rationals (`_to_float` parses decimal
literals; the claims involve no float rounding).
-/

/-- `WeightExtractor._to_float`: comma becomes dot, parse, reject ≥ 1e7. -/
def toFloatW (s : PyStr) : Option Rat :=
  let t := s.map fun c => if c = ',' then '.' else c
  let ip := t.takeWhile isDigitC
  let q : Rat :=
    match t.drop ip.length with
    | '.' :: fp => mkRat (parseNat ip * 10 ^ fp.length + parseNat fp) (10 ^ fp.length)
    | _ => mkRat (parseNat ip) 1
  if q < mkRat 10000000 1 then some q else none

/-- Python `max` on two floats (keeps the first argument on ties). -/
def pyMax (a b : Rat) : Rat := if a < b then b else a

/-- Python `min` on two floats (keeps the first argument on ties). -/
def pyMin (a b : Rat) : Rat := if b < a then b else a

/-- One match of `RE_NUMBER = (\d+[.,]?\d*)` at the head: maximal digit run,
optionally a separator (consumed greedily) and a second maximal digit run. -/
def numTokenAt (cs : PyStr) : Option (PyStr × PyStr) :=
  let ip := cs.takeWhile isDigitC
  if ip.isEmpty then none else
  match cs.drop ip.length with
  | c :: rest =>
    if c = '.' || c = ',' then
      let fp := rest.takeWhile isDigitC
      some (ip ++ c :: fp, rest.drop fp.length)
    else some (ip, c :: rest)
  | [] => some (ip, [])

/-- Fuelled scanner for `RE_NUMBER.findall`. -/
def reNumberScan : Nat → PyStr → List PyStr
  | 0, _ => []
  | _ + 1, [] => []
  | fuel + 1, c :: cs =>
    match numTokenAt (c :: cs) with
    | some (tok, rest) => tok :: reNumberScan fuel rest
    | none => reNumberScan fuel cs

/-- `RE_NUMBER.findall(line)`. -/
def reNumberFindall (s : PyStr) : List PyStr := reNumberScan s.length s

/-- Match of `RE_COST_ROW` (a number with exactly two decimals, whitespace, a
second such number) at the head of the string.  Both integer parts must be
maximal digit runs ending at a separator, and the first fractional part must
have exactly two digits followed by whitespace. -/
def costRowAt (cs : PyStr) : Bool :=
  let a := cs.takeWhile isDigitC
  if a.isEmpty then false else
  match cs.drop a.length with
  | c1 :: cs1 =>
    if !(c1 = ',' || c1 = '.') then false else
    match cs1 with
    | d1 :: d2 :: cs2 =>
      if !(isDigitC d1 && isDigitC d2) then false else
      let w := cs2.takeWhile isWs
      if w.isEmpty then false else
      let cs3 := cs2.drop w.length
      let b := cs3.takeWhile isDigitC
      if b.isEmpty then false else
      match cs3.drop b.length with
      | e1 :: f1 :: f2 :: _ => (e1 = ',' || e1 = '.') && isDigitC f1 && isDigitC f2
      | _ => false
    | _ => false
  | [] => false

/-- `RE_COST_ROW.search(line)`. -/
def costRowSearch : PyStr → Bool
  | [] => false
  | c :: cs => costRowAt (c :: cs) || costRowSearch cs

/-- `WeightExtractor.RE_TRACKING` (case-insensitive `\b1Z[0-9A-Z]{8,20}\b`),
as `re.search`. -/
def wTrackingSearch (s : PyStr) : Bool :=
  upsLikeSearch (· = '1') (fun c => c = 'Z' || c = 'z') isAlnumCI 8 20 s

/-- `RE_SERVICE_LINE_KEY = \b(WW|TB|Express|Worldwide|Package|PKG)\b`,
case-insensitive: some word token equals one of the alternatives. -/
def serviceKeySearch (s : PyStr) : Bool :=
  (wordTokens s).any fun t =>
    [pyOf "ww", pyOf "tb", pyOf "express", pyOf "worldwide", pyOf "package",
     pyOf "pkg"].any fun k => pyLower t == k

/-- Match of the pass-1 pattern `\b(\d+)\s+(\d+[.,]\d+)\b` at the head. -/
def matchIntFloatAt (prev : Option Char) (cs : PyStr) : Option (PyStr × PyStr) :=
  if !boundaryOkP prev then none else
  let a := cs.takeWhile isDigitC
  if a.isEmpty then none else
  let cs1 := cs.drop a.length
  let w := cs1.takeWhile isWs
  if w.isEmpty then none else
  let cs2 := cs1.drop w.length
  let b := cs2.takeWhile isDigitC
  if b.isEmpty then none else
  match cs2.drop b.length with
  | c :: cs3 =>
    if !(c = '.' || c = ',') then none else
    let f := cs3.takeWhile isDigitC
    if f.isEmpty then none else
    (match cs3.drop f.length with
     | [] => some (a, b ++ c :: f)
     | e :: _ => if isWord e then none else some (a, b ++ c :: f))
  | [] => none

/-- `re.search` for the pass-1 `int float` pair. -/
def searchIntFloat : Option Char → PyStr → Option (PyStr × PyStr)
  | _, [] => none
  | prev, c :: cs =>
    match matchIntFloatAt prev (c :: cs) with
    | some r => some r
    | none => searchIntFloat (some c) cs

/-- Case-insensitive literal prefix. -/
def prefixCI (kw : String) (cs : PyStr) : Bool :=
  (pyOf kw).isPrefixOf (pyLower cs)

/-- A `\b` after the first `n` characters. -/
def boundaryAfterN (cs : PyStr) (n : Nat) : Bool :=
  match cs.drop n with
  | [] => true
  | e :: _ => !isWord e

/-- The literal alternation `PKG|pkg|Packages|PKGS` (case-insensitive) with
its trailing `\b`, at the head of the string. -/
def pkgTokenAt (cs : PyStr) : Bool :=
  (prefixCI "pkg" cs && boundaryAfterN cs 3) ||
  (prefixCI "packages" cs && boundaryAfterN cs 8) ||
  (prefixCI "pkgs" cs && boundaryAfterN cs 4)

/-- Match of the pass-1 package pattern `(\d+)\s*(?:PKG|pkg|Packages|PKGS)\b`
at the head; returns the digit group. -/
def matchNumPkgAt (cs : PyStr) : Option PyStr :=
  let d := cs.takeWhile isDigitC
  if d.isEmpty then none else
  if pkgTokenAt ((cs.drop d.length).dropWhile isWs) then some d else none

/-- `re.search` for the package-count pattern. -/
def searchNumPkg : PyStr → Option PyStr
  | [] => none
  | c :: cs =>
    match matchNumPkgAt (c :: cs) with
    | some d => some d
    | none => searchNumPkg cs

/-- The `RE_PAKETE` alternatives, in source order (`pkgs?` and `pallets?`
expand greedily to the long form first; `st√ºck` is the source's literal). -/
def paketeAlts : List String :=
  ["pakete", "pieces", "st√ºck", "stk", "packages", "pkgs", "pkg", "colis",
   "pallets", "pallet"]

/-- Tail `[:,]?\s*(\d+)` of `RE_PAKETE`; returns the captured count. -/
def paketeTail (cs : PyStr) : Option Nat :=
  let cs1 :=
    match cs with
    | c :: rest => if c = ':' || c = ',' then rest else cs
    | [] => cs
  let d := (cs1.dropWhile isWs).takeWhile isDigitC
  if d.isEmpty then none else some (parseNat d)

/-- One position of the `RE_PAKETE` search: alternatives in order, each with
the tail. -/
def paketeAt (cs : PyStr) : Option Nat :=
  paketeAlts.findSome? fun kw =>
    if prefixCI kw cs then paketeTail (cs.drop kw.length) else none

/-- `RE_PAKETE.search(line)`, yielding `group(2)`. -/
def paketeSearch : PyStr → Option Nat
  | [] => none
  | c :: cs =>
    match paketeAt (c :: cs) with
    | some n => some n
    | none => paketeSearch cs

/-- `RE_WEIGHT_KW` search: containment of one of the alternatives
(case-insensitive; none is anchored). -/
def weightKwSearch (l : PyStr) : Bool :=
  [pyOf "gross", pyOf "brutto", pyOf "actual weight", pyOf "gewicht",
   pyOf "weight", pyOf "chargeable", pyOf "chargeable weight",
   pyOf "rechnungsgewicht"].any fun k => containsSub (pyLower l) k

/-- The chargeable-specific keyword search of pass 3. -/
def chargeableKwSearch (l : PyStr) : Bool :=
  [pyOf "chargeable", pyOf "berechnet", pyOf "frachtpflichtig",
   pyOf "rechnungsgewicht"].any fun k => containsSub (pyLower l) k

/-- `RE_LM = (lademeter|loading\s*meter|ld\.?m|lm)` search, case-insensitive. -/
def lmSearch (l : PyStr) : Bool :=
  let low := pyLower l
  containsSub low (pyOf "lademeter") ||
  (low.tails.any fun suf =>
    match afterPrefix (pyOf "loading") suf with
    | some r => (pyOf "meter").isPrefixOf (r.dropWhile isWs)
    | none => false) ||
  containsSub low (pyOf "ldm") || containsSub low (pyOf "ld.m") ||
  containsSub low (pyOf "lm")

/-- `RE_CBM = (m3|cbm|cubic|kubik|volume)` search, case-insensitive. -/
def cbmSearch (l : PyStr) : Bool :=
  [pyOf "m3", pyOf "cbm", pyOf "cubic", pyOf "kubik", pyOf "volume"].any
    fun k => containsSub (pyLower l) k

/-- The five result fields of `WeightExtractor.extract`. -/
structure WeightState where
  gross_weight : Option Rat
  chargeable_weight : Option Rat
  loading_meter : Option Rat
  cubic_meter : Option Rat
  pallet_amount : Option Nat
deriving DecidableEq

/-- Pass 1: tracking/service lines, `int float` pair and `<n> PKG`. -/
def pass1Line (st : WeightState) (l : PyStr) : WeightState :=
  if wTrackingSearch l || serviceKeySearch l then
    let st1 :=
      match searchIntFloat none l with
      | some (a, bf) =>
        { st with pallet_amount := some (parseNat a), gross_weight := toFloatW bf }
      | none => st
    match searchNumPkg l with
    | some d =>
      if st1.pallet_amount = none ∨ st1.pallet_amount = some 0 then
        { st1 with pallet_amount := some (parseNat d) }
      else st1
    | none => st1
  else st

/-- Pass 2: explicit package/pallet keywords. -/
def pass2Line (st : WeightState) (l : PyStr) : WeightState :=
  match paketeSearch l with
  | some n => { st with pallet_amount := some n }
  | none => st

/-- Pass 3: keyword-based weight, loading-meter and cubic-meter parsing. -/
def pass3Line (st : WeightState) (l : PyStr) : WeightState :=
  let st1 :=
    if weightKwSearch l then
      match reNumberFindall l with
      | [] => st
      | nums =>
        match toFloatW (nums.getLastD []) with
        | some v =>
          if chargeableKwSearch l then { st with chargeable_weight := some v }
          else if st.gross_weight = none then { st with gross_weight := some v }
          else st
        | none => st
    else st
  let st2 :=
    if lmSearch l then
      match reNumberFindall l with
      | [] => st1
      | nums => { st1 with loading_meter := toFloatW (nums.getLastD []) }
    else st1
  if cbmSearch l then
    match reNumberFindall l with
    | [] => st2
    | nums => { st2 with cubic_meter := toFloatW (nums.getLastD []) }
  else st2

/-- Pass 4: the UPS "Gewicht/Container" line.  With two parsed values the
larger overwrites `chargeable_weight` and the smaller `gross_weight`
unconditionally; with one value `gross_weight` is filled only if unset.  (A
two-token line whose value parses to `None` — only possible at ≥ 1e7 — would
make Python's `max` raise; that unreachable-in-the-claims case is rendered as
a no-op.) -/
def pass4Line (st : WeightState) (l : PyStr) : WeightState :=
  if containsSub (pyLower l) (pyOf "gewicht/container") then
    match (reNumberFindall l).map toFloatW with
    | [v] => if st.gross_weight = none then { st with gross_weight := v } else st
    | [v1, v2] =>
      match v1, v2 with
      | some x, some y =>
        { st with chargeable_weight := some (pyMax x y), gross_weight := some (pyMin x y) }
      | _, _ => st
    | _ => st
  else st

/-- The line list after the cost-row pre-filter of `extract`. -/
def cleanWeightLines (block : PyStr) : List PyStr :=
  (pageLines block).filter fun l => !costRowSearch l

/-- The four passes of `WeightExtractor.extract` over a prepared line list. -/
def weightPasses (lines : List PyStr) : WeightState :=
  lines.foldl pass4Line
    (lines.foldl pass3Line
      (lines.foldl pass2Line
        (lines.foldl pass1Line ⟨none, none, none, none, none⟩)))

/-- `WeightExtractor.extract`. -/
def weightExtract (block : PyStr) : WeightState :=
  weightPasses (cleanWeightLines block)

/-- The pass-1–3 state of `extract`, before the "Gewicht/Container" pass. -/
def weightStateBeforePass4 (block : PyStr) : WeightState :=
  (cleanWeightLines block).foldl pass3Line
    ((cleanWeightLines block).foldl pass2Line
      ((cleanWeightLines block).foldl pass1Line ⟨none, none, none, none, none⟩))

/-- C5 counterexample: in the block "rechnungsgewicht 200,0" +
"Gewicht/Container 6,0 5,5", pass 3 sets `chargeable_weight = 200.0` and
`gross_weight = 5.5`, and the final "gewicht/container" pass then REPLACES the
already-set `chargeable_weight` with 6.0 — the pass does overwrite values set
by earlier passes. -/
theorem weight_no_overwrite_counterexample :
    (weightStateBeforePass4 (pyOf "rechnungsgewicht 200,0\nGewicht/Container 6,0 5,5")).chargeable_weight
      = some (mkRat 200 1) ∧
    (weightStateBeforePass4 (pyOf "rechnungsgewicht 200,0\nGewicht/Container 6,0 5,5")).gross_weight
      = some (mkRat 11 2) ∧
    weightExtract (pyOf "rechnungsgewicht 200,0\nGewicht/Container 6,0 5,5")
      = ⟨some (mkRat 11 2), some (mkRat 6 1), none, none, none⟩ := by
  refine ⟨by decide, by decide, by decide⟩

/-- C5 (amended): the final "gewicht/container" pass only fills nulls when no
such line carries exactly two numeric tokens — a one-token line fills
`gross_weight` only if unset and never touches `chargeable_weight` — but a
two-token "gewicht/container" line unconditionally overwrites both, assigning
the larger value to `chargeable_weight` and the smaller to `gross_weight`,
even when an earlier pass had set them. -/
theorem weight_pass4_behavior :
    (∀ (lines : List PyStr) (st : WeightState),
      (∀ l ∈ lines, containsSub (pyLower l) (pyOf "gewicht/container") = true →
        (reNumberFindall l).length ≠ 2) →
      (st.gross_weight ≠ none → (lines.foldl pass4Line st).gross_weight = st.gross_weight) ∧
      (lines.foldl pass4Line st).chargeable_weight = st.chargeable_weight) ∧
    (∀ (st : WeightState) (l : PyStr) (x y : Rat),
      containsSub (pyLower l) (pyOf "gewicht/container") = true →
      (reNumberFindall l).map toFloatW = [some x, some y] →
      pass4Line st l =
        { st with chargeable_weight := some (pyMax x y), gross_weight := some (pyMin x y) }) := by
  constructor
  · intro lines
    induction lines with
    | nil => intro st _; exact ⟨fun _ => rfl, rfl⟩
    | cons l ls ih =>
      intro st h
      have hstep :
          (pass4Line st l).chargeable_weight = st.chargeable_weight ∧
          (st.gross_weight ≠ none → pass4Line st l = st) := by
        unfold pass4Line
        by_cases hgc : containsSub (pyLower l) (pyOf "gewicht/container") = true
        · rw [if_pos hgc]
          have hlen : (reNumberFindall l).length ≠ 2 := h l (by simp) hgc
          cases hv : (reNumberFindall l).map toFloatW with
          | nil => exact ⟨rfl, fun _ => rfl⟩
          | cons v vs =>
            cases vs with
            | nil =>
              show (if st.gross_weight = none then
                      { st with gross_weight := v } else st).chargeable_weight
                    = st.chargeable_weight ∧
                  (st.gross_weight ≠ none →
                    (if st.gross_weight = none then
                      { st with gross_weight := v } else st) = st)
              by_cases hg : st.gross_weight = none
              · rw [if_pos hg]
                exact ⟨rfl, fun hne => absurd hg hne⟩
              · rw [if_neg hg]
                exact ⟨rfl, fun _ => rfl⟩
            | cons v2 vs2 =>
              cases vs2 with
              | nil =>
                exfalso
                have : (reNumberFindall l).length = 2 := by
                  have := congrArg List.length hv
                  simpa using this
                exact hlen this
              | cons v3 vs3 => exact ⟨rfl, fun _ => rfl⟩
        · rw [if_neg hgc]
          exact ⟨rfl, fun _ => rfl⟩
      have hrest := ih (pass4Line st l) fun x hx => h x (by simp [hx])
      rw [List.foldl_cons]
      constructor
      · intro hne
        have hsame := hstep.2 hne
        rw [hsame] at hrest ⊢
        exact hrest.1 hne
      · rw [hrest.2, hstep.1]
  · intro st l x y hgc hv
    unfold pass4Line
    rw [if_pos hgc, hv]

/-- Witness for C5 (amended): a one-token "gewicht/container" line leaves a
set `gross_weight` alone; a two-token one overwrites both fields. -/
theorem weight_pass4_behavior_witness :
    ([pyOf "gewicht/container 7,5"].foldl pass4Line
        ⟨some 3, some 4, none, none, none⟩).gross_weight = some 3 ∧
    pass4Line ⟨some 3, some 4, none, none, none⟩ (pyOf "gewicht/container 6,0 5,5")
      = ⟨some (mkRat 11 2), some (mkRat 6 1), none, none, none⟩ := by
  constructor
  · exact (weight_pass4_behavior.1 [pyOf "gewicht/container 7,5"]
      ⟨some 3, some 4, none, none, none⟩ (by decide)).1 (by decide)
  · exact (weight_pass4_behavior.2 ⟨some 3, some 4, none, none, none⟩
      (pyOf "gewicht/container 6,0 5,5") (mkRat 6 1) (mkRat 11 2) (by decide) (by decide)).trans
      (by decide)

/-- C6: a line matching the two-decimal cost-pair pattern is removed before
all weight parsing — the whole extraction result equals the run on the other
lines alone, so numbers on such a line can populate none of `gross_weight`,
`chargeable_weight`, `loading_meter`, `cubic_meter` or `pallet_amount`. -/
theorem weights_cost_row_inert (block : PyStr) (pre post : List PyStr) (l : PyStr)
    (hsplit : pageLines block = pre ++ l :: post) (hl : costRowSearch l = true) :
    weightExtract block =
      weightPasses ((pre ++ post).filter fun x => !costRowSearch x) := by
  unfold weightExtract cleanWeightLines
  rw [hsplit, List.filter_append, List.filter_cons]
  simp [hl, List.filter_append]

/-- Witness for C6: the tariff row "748,40 374,25" contributes nothing — the
result equals the run on the remaining line, and no weight field holds 748.40
or 374.25. -/
theorem weights_cost_row_inert_witness :
    costRowSearch (pyOf "748,40 374,25") = true ∧
    weightExtract (pyOf "brutto 5,5\n748,40 374,25")
      = weightPasses (([pyOf "brutto 5,5"] ++ []).filter fun x => !costRowSearch x) ∧
    weightExtract (pyOf "brutto 5,5\n748,40 374,25")
      = ⟨some (mkRat 11 2), none, none, none, none⟩ :=
  ⟨by decide,
   weights_cost_row_inert (pyOf "brutto 5,5\n748,40 374,25") [pyOf "brutto 5,5"] []
     (pyOf "748,40 374,25") (by decide) (by decide),
   by decide⟩

/-!
### CostExtractor (src/extractors/costs.py)
-/

/-- One German-formatted number `\d{1,3}(\.\d{3})*,\d{1,2}` at the head.
Each digit run must be exhausted (the following mandatory element — a dot
group, the comma, or the whitespace/end after the number — is never a digit,
so a shorter greedy take fails), giving lengths 1–3, exactly 3 per dot group,
and 1–2 decimals.  Returns the token and the rest. -/
def germanDotGroups : Nat → PyStr → (PyStr × PyStr)
  | 0, cs => ([], cs)
  | fuel + 1, cs =>
    match cs with
    | '.' :: d1 :: d2 :: d3 :: rest =>
      if isDigitC d1 && isDigitC d2 && isDigitC d3 then
        match germanDotGroups fuel rest with
        | (g, r) => ('.' :: d1 :: d2 :: d3 :: g, r)
      else ([], cs)
    | _ => ([], cs)

def germanNumAt (cs : PyStr) : Option (PyStr × PyStr) :=
  let ip := cs.takeWhile isDigitC
  if ip.length < 1 || 3 < ip.length then none else
  match germanDotGroups cs.length (cs.drop ip.length) with
  | (g, r) =>
    match r with
    | ',' :: r2 =>
      let fp := r2.takeWhile isDigitC
      if fp.length < 1 || 2 < fp.length then none
      else some (ip ++ g ++ ',' :: fp, r2.drop fp.length)
    | _ => none

/-- The `numcols` tail of `ROW_RE`: numbers separated by `\s+`, reaching the
end of the line exactly; the result is the list `numcols.split()` would
give. -/
def numcolsParse : Nat → PyStr → Option (List PyStr)
  | 0, _ => none
  | fuel + 1, cs =>
    match germanNumAt cs with
    | none => none
    | some (tok, rest) =>
      match rest with
      | [] => some [tok]
      | _ :: _ =>
        let w := rest.takeWhile isWs
        if w.isEmpty then none
        else
          match numcolsParse fuel (rest.drop w.length) with
          | some cols => some (tok :: cols)
          | none => none

/-- The description class `[A-Za-zÄÖÜäöüß0-9 ... ]` of `ROW_RE` (letters,
umlauts, digits, dash, dot, parentheses, slash, space, comma). -/
def descChar (c : Char) : Bool :=
  ('A' ≤ c && c ≤ 'Z') || ('a' ≤ c && c ≤ 'z') ||
  c = 'Ä' || c = 'Ö' || c = 'Ü' || c = 'ä' || c = 'ö' || c = 'ü' || c = 'ß' ||
  isDigitC c || c = '-' || c = '.' || c = '(' || c = ')' || c = '/' || c = ' ' || c = ','

/-- `ROW_RE.match(line)`: a lazy description (shortest prefix of description
characters first), mandatory whitespace, then at least two German numbers
whitespace-separated up to the end of the line.  Returns the `desc` group and
the split `numcols` list. -/
def rowMatch (line : PyStr) : Option (PyStr × List PyStr) :=
  let maxd := (line.takeWhile descChar).length
  (List.range maxd).findSome? fun i =>
    let dlen := i + 1
    let rest := line.drop dlen
    let w := rest.takeWhile isWs
    if w.isEmpty then none
    else
      match numcolsParse line.length (rest.drop w.length) with
      | some cols => if 2 ≤ cols.length then some (line.take dlen, cols) else none
      | none => none

/-- `CostExtractor._to_float`: drop thousands dots, comma to dot, parse,
reject ≥ 1e7. -/
def toFloatC (s : PyStr) : Option Rat :=
  let t := (s.filter fun c => c ≠ '.').map fun c => if c = ',' then '.' else c
  let ip := t.takeWhile isDigitC
  let q : Rat :=
    match t.drop ip.length with
    | '.' :: fp => mkRat (parseNat ip * 10 ^ fp.length + parseNat fp) (10 ^ fp.length)
    | _ => mkRat (parseNat ip) 1
  if q < mkRat 10000000 1 then some q else none

/-- An ASCII letter (the `[A-Z]` class under `re.IGNORECASE`). -/
def isAsciiLetter (c : Char) : Bool := ('A' ≤ c && c ≤ 'Z') || ('a' ≤ c && c ≤ 'z')

/-- `CURRENCY_RE = Gesamtkosten\s+(?P<cur>[A-Z]{3})` (case-insensitive)
searched over the whole text; the group is returned verbatim. -/
def detectInvoiceCurrency (text : PyStr) : Option PyStr :=
  text.tails.findSome? fun suf =>
    if prefixCI "gesamtkosten" suf then
      let r := suf.drop 12
      if (r.takeWhile isWs).isEmpty then none
      else
        match r.dropWhile isWs with
        | a :: b :: c :: _ =>
          if isAsciiLetter a && isAsciiLetter b && isAsciiLetter c then some [a, b, c]
          else none
        | _ => none
    else none

/-- Inline currency `\b(CHF|EUR|USD|GBP)\b` (case-insensitive): the first
word token equal to one of the codes, uppercased. -/
def detectCurrencyInline (line : PyStr) : Option PyStr :=
  (wordTokens line).findSome? fun t =>
    if [pyOf "chf", pyOf "eur", pyOf "usd", pyOf "gbp"].any fun k => pyLower t == k
    then some (pyUpper t) else none

/-- `SKIP_KEYWORDS` (with the source's duplicate entry). -/
def skipKeywords : List PyStr :=
  [pyOf "gesamtkosten", pyOf "gesamtbetrag", pyOf "anzahl", pyOf "anzahl worldwide",
   pyOf "anzahl ww express", pyOf "package", pyOf "packages",
   pyOf "ww express saver package", pyOf "rabatt (gesamt)",
   pyOf "rabattzusammenfassung", pyOf "rabatt (gesamt)",
   pyOf "gesamtbetrag zusätzliche tarife"]

/-- `CATEGORY_MAP`, in insertion order. -/
def categoryMap : List (PyStr × PyStr) :=
  [(pyOf "transport", pyOf "Freight"), (pyOf "dritte partei transport", pyOf "Freight"),
   (pyOf "benzinzuschlag", pyOf "Fuel"), (pyOf "diesel", pyOf "Fuel"),
   (pyOf "maut", pyOf "Toll"), (pyOf "toll", pyOf "Toll"),
   (pyOf "zoll", pyOf "Customs"), (pyOf "customs", pyOf "Customs"),
   (pyOf "verzollung", pyOf "Customs"), (pyOf "handling", pyOf "Handling"),
   (pyOf "lager", pyOf "Storage"), (pyOf "storage", pyOf "Storage"),
   (pyOf "versicherung", pyOf "Insurance"), (pyOf "insurance", pyOf "Insurance"),
   (pyOf "rabatt", pyOf "Discount"), (pyOf "discount", pyOf "Discount"),
   (pyOf "surcharge", pyOf "Surcharge"), (pyOf "gebühr", pyOf "Surcharge"),
   (pyOf "surge fee", pyOf "Surcharge")]

/-- Modelled from the spec: `rapidfuzz.fuzz.partial_ratio` is an external
fuzzy-similarity dependency; the spec fixes only the threshold semantics and
calls the exact metric not load-bearing.  The model scores 100 when the
keyword occurs as a substring of the description (the metric's perfect-window
case) and 0 otherwise. -/
def partialSim (key d : PyStr) : Nat := if containsSub d key then 100 else 0

/-- `CostExtractor._normalize_category`: best-scoring category (strictly
increasing scan in table order), accepted at score ≥ 70, else the raw
description. -/
def normalizeCategory (desc : PyStr) : PyStr :=
  let d := pyLower (pyStrip desc)
  let best := categoryMap.foldl
    (fun acc kv => if partialSim kv.1 d > acc.1 then (partialSim kv.1 d, some kv.2) else acc)
    ((0 : Nat), (none : Option PyStr))
  match best.2 with
  | some cat => if 70 ≤ best.1 then cat else desc
  | none => desc

/-- `CostItem` dictionaries produced by the extractor. -/
structure CostItem where
  extracted_category : PyStr
  total_cost_in_shipment_currency : Option Rat
  currency : Option PyStr
  mention : PyStr
deriving DecidableEq

/-- The dedup signature `(category, value, currency)`. -/
def sigOf (it : CostItem) : PyStr × Option Rat × Option PyStr :=
  (it.extracted_category, it.total_cost_in_shipment_currency, it.currency)

/-- `currency = currency_line or currency_invoice` in `extract`. -/
def costCurrency (curInv : Option PyStr) (line : PyStr) : Option PyStr :=
  match detectCurrencyInline line with
  | some c => some c
  | none => curInv

/-- The item dict built for one matched row. -/
def costItemOf (curInv : Option PyStr) (line desc : PyStr) (cols : List PyStr) : CostItem :=
  ⟨normalizeCategory (pyStrip desc), toFloatC (cols.getLastD []),
    costCurrency curInv line, line⟩

/-- The per-line loop of `CostExtractor.extract`, carrying the `seen` set and
the accumulated items. -/
def costLoop (curInv : Option PyStr) :
    List PyStr → List (PyStr × Option Rat × Option PyStr) → List CostItem → List CostItem
  | [], _, acc => acc
  | raw :: rest, seen, acc =>
    let line := pyStrip raw
    if line.isEmpty then costLoop curInv rest seen acc
    else if skipKeywords.any (fun k => containsSub (pyLower line) k) then
      costLoop curInv rest seen acc
    else
      match rowMatch line with
      | none => costLoop curInv rest seen acc
      | some (desc, cols) =>
        let item := costItemOf curInv line desc cols
        if sigOf item ∈ seen then costLoop curInv rest seen acc
        else costLoop curInv rest (sigOf item :: seen) (acc ++ [item])

/-- `CostExtractor.extract`. -/
def costExtract (text : PyStr) : List CostItem :=
  costLoop (detectInvoiceCurrency text) (splitNL text) [] []

theorem costLoop_rightmost (curInv : Option PyStr) :
    ∀ (lines : List PyStr) (seen : List (PyStr × Option Rat × Option PyStr))
      (acc : List CostItem),
      (∀ it ∈ acc, ∃ desc cols, rowMatch it.mention = some (desc, cols) ∧
        it.total_cost_in_shipment_currency = toFloatC (cols.getLastD [])) →
      ∀ it ∈ costLoop curInv lines seen acc,
        ∃ desc cols, rowMatch it.mention = some (desc, cols) ∧
          it.total_cost_in_shipment_currency = toFloatC (cols.getLastD []) := by
  intro lines
  induction lines with
  | nil => intro seen acc hacc it hit; exact hacc it hit
  | cons raw rest ih =>
    intro seen acc hacc it hit
    simp only [costLoop] at hit
    by_cases h1 : (pyStrip raw).isEmpty = true
    · rw [if_pos h1] at hit; exact ih seen acc hacc it hit
    · rw [if_neg h1] at hit
      by_cases h2 : (skipKeywords.any fun k => containsSub (pyLower (pyStrip raw)) k) = true
      · rw [if_pos h2] at hit; exact ih seen acc hacc it hit
      · rw [if_neg h2] at hit
        cases hrm : rowMatch (pyStrip raw) with
        | none => rw [hrm] at hit; exact ih seen acc hacc it hit
        | some dc =>
          rw [hrm] at hit
          obtain ⟨desc, cols⟩ := dc
          have hit2 : it ∈
              (if sigOf (costItemOf curInv (pyStrip raw) desc cols) ∈ seen then
                costLoop curInv rest seen acc
              else costLoop curInv rest
                (sigOf (costItemOf curInv (pyStrip raw) desc cols) :: seen)
                (acc ++ [costItemOf curInv (pyStrip raw) desc cols])) := hit
          clear hit
          by_cases h3 : sigOf (costItemOf curInv (pyStrip raw) desc cols) ∈ seen
          · rw [if_pos h3] at hit2
            exact ih seen acc hacc it hit2
          · rw [if_neg h3] at hit2
            refine ih _ _ ?_ it hit2
            intro u hu
            rcases List.mem_append.mp hu with hu1 | hu2
            · exact hacc u hu1
            · have : u = costItemOf curInv (pyStrip raw) desc cols := by
                rcases List.mem_cons.mp hu2 with h | h
                · exact h
                · exact absurd h (by simp)
              rw [this]
              exact ⟨desc, cols, hrm, rfl⟩

/-- C7: every cost item `extract` emits has its total taken from the
rightmost German-formatted number of its (matched) source row. -/
theorem cost_rightmost (text : PyStr) (it : CostItem) (h : it ∈ costExtract text) :
    ∃ desc cols, rowMatch it.mention = some (desc, cols) ∧
      it.total_cost_in_shipment_currency = toFloatC (cols.getLastD []) :=
  costLoop_rightmost (detectInvoiceCurrency text) (splitNL text) [] []
    (by intro u hu; exact absurd hu (by simp)) it h

/-- Witness for C7: the row "Transport 1.234,56 617,28" yields one item whose
total is 617.28, the rightmost number. -/
theorem cost_rightmost_witness :
    (⟨pyOf "Freight", some (mkRat 61728 100), none,
        pyOf "Transport 1.234,56 617,28"⟩ : CostItem)
      ∈ costExtract (pyOf "Transport 1.234,56 617,28") ∧
    ∃ desc cols,
      rowMatch (CostItem.mention ⟨pyOf "Freight", some (mkRat 61728 100), none,
        pyOf "Transport 1.234,56 617,28"⟩) = some (desc, cols) ∧
      CostItem.total_cost_in_shipment_currency ⟨pyOf "Freight", some (mkRat 61728 100),
        none, pyOf "Transport 1.234,56 617,28"⟩ = toFloatC (cols.getLastD []) :=
  ⟨by decide, cost_rightmost (pyOf "Transport 1.234,56 617,28") _ (by decide)⟩

theorem costLoop_pairwise (curInv : Option PyStr) :
    ∀ (lines : List PyStr) (seen : List (PyStr × Option Rat × Option PyStr))
      (acc : List CostItem),
      acc.Pairwise (fun a b => sigOf a ≠ sigOf b) →
      (∀ it ∈ acc, sigOf it ∈ seen) →
      (costLoop curInv lines seen acc).Pairwise fun a b => sigOf a ≠ sigOf b := by
  intro lines
  induction lines with
  | nil => intro seen acc hp _; exact hp
  | cons raw rest ih =>
    intro seen acc hp hseen
    simp only [costLoop]
    by_cases h1 : (pyStrip raw).isEmpty = true
    · rw [if_pos h1]; exact ih seen acc hp hseen
    · rw [if_neg h1]
      by_cases h2 : (skipKeywords.any fun k => containsSub (pyLower (pyStrip raw)) k) = true
      · rw [if_pos h2]; exact ih seen acc hp hseen
      · rw [if_neg h2]
        cases hrm : rowMatch (pyStrip raw) with
        | none => exact ih seen acc hp hseen
        | some dc =>
          obtain ⟨desc, cols⟩ := dc
          show List.Pairwise _
              (if sigOf (costItemOf curInv (pyStrip raw) desc cols) ∈ seen then
                costLoop curInv rest seen acc
              else costLoop curInv rest
                (sigOf (costItemOf curInv (pyStrip raw) desc cols) :: seen)
                (acc ++ [costItemOf curInv (pyStrip raw) desc cols]))
          by_cases h3 : sigOf (costItemOf curInv (pyStrip raw) desc cols) ∈ seen
          · rw [if_pos h3]; exact ih seen acc hp hseen
          · rw [if_neg h3]
            refine ih _ _ ?_ ?_
            · rw [List.pairwise_append]
              refine ⟨hp, by simp, ?_⟩
              intro a ha b hb
              have hb2 : b = costItemOf curInv (pyStrip raw) desc cols := by
                rcases List.mem_cons.mp hb with h | h
                · exact h
                · exact absurd h (by simp)
              rw [hb2]
              intro hcon
              exact h3 (hcon ▸ hseen a ha)
            · intro u hu
              rcases List.mem_append.mp hu with hu1 | hu2
              · exact List.mem_cons_of_mem _ (hseen u hu1)
              · have : u = costItemOf curInv (pyStrip raw) desc cols := by
                  rcases List.mem_cons.mp hu2 with h | h
                  · exact h
                  · exact absurd h (by simp)
                rw [this]
                exact List.mem_cons_self _ _

/-- C8: within one block no two emitted cost items share the
(category, value, currency) triple; two rows with an identical triple
collapse to one item, while rows differing only in currency are both kept. -/
theorem cost_dedup_triples :
    (∀ text : PyStr, (costExtract text).Pairwise fun a b => sigOf a ≠ sigOf b) ∧
    (costExtract (pyOf "Transport 1,00 2,00\nTransport 1,00 2,00")).length = 1 ∧
    ((costExtract (pyOf "Transport EUR 1,00 2,00\nTransport CHF 1,00 2,00")).map
        fun it => (it.extracted_category, it.total_cost_in_shipment_currency, it.currency))
      = [(pyOf "Freight", some (mkRat 2 1), some (pyOf "EUR")),
         (pyOf "Freight", some (mkRat 2 1), some (pyOf "CHF"))] := by
  refine ⟨fun text => costLoop_pairwise _ _ _ _ (by simp) ?_, by decide, by decide⟩
  intro u hu
  exact absurd hu (by simp)

/-!
### Validator (src/validate.py)

The record is the flat dict assembled by the orchestrator (extract.py lines
79-97): string-ish fields hold a string or None, numeric fields hold an int,
a float, or the string fallback the validator itself tolerates, and
cost_items holds cost-item dicts.  `pycountry` is an external dependency;
the spec fixes only that country fields become ISO-2 when resolvable and
keep the raw string otherwise, so the alpha-2 table and the name lookup are
modelled by finite tables whose lookup results are alpha-2 codes.  Python
`float(s)` and `int(s)` on strings are modelled for plain decimal literals.
-/

/-- A Python value in a numeric field: int, float, or string fallback. -/
inductive PyNum where
  | int (n : Int)
  | float (q : Rat)
  | str (s : PyStr)
deriving DecidableEq

/-- Modelled from the spec: the alpha-2 code table behind
`pycountry.countries.get(alpha_2=...)`. -/
def iso2Codes : List PyStr :=
  [pyOf "AT", pyOf "BE", pyOf "CH", pyOf "CN", pyOf "DE", pyOf "ES", pyOf "FR",
   pyOf "GB", pyOf "HK", pyOf "IT", pyOf "NL", pyOf "PL", pyOf "US"]

/-- Modelled from the spec: `pycountry.countries.lookup` applied to the
already stripped-and-uppercased code, yielding the alpha-2 code of the
matching country name, raising (here: `none`) when nothing matches. -/
def countryLookupTable : List (PyStr × PyStr) :=
  [(pyOf "AUSTRIA", pyOf "AT"), (pyOf "BELGIUM", pyOf "BE"),
   (pyOf "SWITZERLAND", pyOf "CH"), (pyOf "CHINA", pyOf "CN"),
   (pyOf "GERMANY", pyOf "DE"), (pyOf "SPAIN", pyOf "ES"),
   (pyOf "FRANCE", pyOf "FR"), (pyOf "UNITED KINGDOM", pyOf "GB"),
   (pyOf "HONG KONG", pyOf "HK"), (pyOf "ITALY", pyOf "IT"),
   (pyOf "NETHERLANDS", pyOf "NL"), (pyOf "POLAND", pyOf "PL"),
   (pyOf "UNITED STATES", pyOf "US")]

/-- `pycountry.countries.get(alpha_2=code)` truthiness. -/
def countriesGet (code : PyStr) : Bool := iso2Codes.any fun k => k == code

/-- `pycountry.countries.lookup(code).alpha_2`, `none` on a raised lookup
error. -/
def countriesLookup (name : PyStr) : Option PyStr :=
  (countryLookupTable.find? fun kv => kv.1 == name).map fun kv => kv.2

/-- `Validator._clean_str` on a string-or-None field (`str(value)` is the
identity there): strip, then `val or None`. -/
def cleanStr : Option PyStr → Option PyStr
  | none => none
  | some v =>
    let val := pyStrip v
    if val.isEmpty then none else some val

/-- Modelled Python `float(s)` restricted to plain decimal literals:
optional surrounding whitespace, optional sign, `digits`, `digits.digits`
or `.digits` (exponents, inf and nan are outside the model). -/
def pyFloatOfStr (s : PyStr) : Option Rat :=
  let t := pyStrip s
  let p : Int × PyStr :=
    match t with
    | '-' :: r => (-1, r)
    | '+' :: r => (1, r)
    | _ => (1, t)
  let ip := p.2.takeWhile isDigitC
  match p.2.drop ip.length with
  | [] => if ip.isEmpty then none else some (mkRat (p.1 * (parseNat ip : Int)) 1)
  | '.' :: fr =>
    if fr.all isDigitC && !(ip.isEmpty && fr.isEmpty) then
      some (mkRat (p.1 * ((parseNat ip * 10 ^ fr.length + parseNat fr : Nat) : Int))
        (10 ^ fr.length))
    else none
  | _ => none

/-- Modelled Python `int(s)` on a string: optional surrounding whitespace,
optional sign, digits only. -/
def pyIntOfStr (s : PyStr) : Option Int :=
  let t := pyStrip s
  let p : Int × PyStr :=
    match t with
    | '-' :: r => (-1, r)
    | '+' :: r => (1, r)
    | _ => (1, t)
  if p.2.isEmpty || !p.2.all isDigitC then none
  else some (p.1 * (parseNat p.2 : Int))

/-- Python `int()` truncation of a float toward zero. -/
def ratTruncInt (q : Rat) : Int := q.num.tdiv (q.den : Int)

/-- `Validator._clean_float`: None kept, numbers coerced to float, strings
parsed with the comma-to-dot retry, else None. -/
def cleanFloat : Option PyNum → Option PyNum
  | none => none
  | some (.int n) => some (.float (mkRat n 1))
  | some (.float q) => some (.float q)
  | some (.str s) =>
    match pyFloatOfStr s with
    | some q => some (.float q)
    | none =>
      match pyFloatOfStr (s.map fun c => if c = ',' then '.' else c) with
      | some q => some (.float q)
      | none => none

/-- `Validator._clean_int`: None kept, ints kept, floats truncated, digit
strings parsed, else None. -/
def cleanInt : Option PyNum → Option PyNum
  | none => none
  | some (.int n) => some (.int n)
  | some (.float q) => some (.int (ratTruncInt q))
  | some (.str s) =>
    match pyIntOfStr s with
    | some n => some (.int n)
    | none => none

/-- Helper for `str.split(sep)` with a one-character separator. -/
def pySplitAux (sep : Char) : PyStr → PyStr → List PyStr
  | [], acc => [acc]
  | c :: cs, acc =>
    if c = sep then acc :: pySplitAux sep cs [] else pySplitAux sep cs (acc ++ [c])

/-- Python `s.split(sep)`. -/
def pySplit (sep : Char) (s : PyStr) : List PyStr := pySplitAux sep s []

/-- `datetime.strptime(value, "%Y-%m-%d")`: split at the dashes (CPython's
`%Y` consumes exactly 4 digits, `%m` and `%d` 1-2), then `datetime`
validity. -/
def strptimeYMD (s : PyStr) : Option YMD :=
  match pySplit '-' s with
  | [ys, ms, ds] =>
    if ys.length = 4 ∧ (∀ c ∈ ys, isDigitC c = true) ∧
       ms ≠ [] ∧ ms.length ≤ 2 ∧ (∀ c ∈ ms, isDigitC c = true) ∧
       ds ≠ [] ∧ ds.length ≤ 2 ∧ (∀ c ∈ ds, isDigitC c = true) then
      mkValidDate (parseNat ys) (parseNat ms) (parseNat ds)
    else none
  | _ => none

/-- Modelled from the spec (section 4.8): the flexible `dateutil` parse with
`dayfirst=True`, restricted to fully numeric day-month-year dates in a
dotted, slashed or dashed layout with an explicit 3-4 digit year; day-first
with the swapped fallback, as in the date extractor. -/
def flexParse (s : PyStr) : Option YMD :=
  let t := pyStrip s
  let parts :=
    if (t.filter fun c => c = '.').length = 2 then pySplit '.' t
    else if (t.filter fun c => c = '/').length = 2 then pySplit '/' t
    else if (t.filter fun c => c = '-').length = 2 then pySplit '-' t
    else []
  match parts with
  | [a, b, c] =>
    if a ≠ [] ∧ a.length ≤ 2 ∧ (∀ x ∈ a, isDigitC x = true) ∧
       b ≠ [] ∧ b.length ≤ 2 ∧ (∀ x ∈ b, isDigitC x = true) ∧
       3 ≤ c.length ∧ c.length ≤ 4 ∧ (∀ x ∈ c, isDigitC x = true) then
      safeParseDMY (parseNat a) (parseNat b) (parseNat c)
    else none
  | _ => none

/-- `Validator._clean_date`: falsy to None; strict ISO parse reformatted;
else flexible parse reformatted; else None. -/
def cleanDate : Option PyStr → Option PyStr
  | none => none
  | some s =>
    if s.isEmpty then none
    else
      match strptimeYMD s with
      | some d => some (fmtYMD d)
      | none =>
        match flexParse s with
        | some d => some (fmtYMD d)
        | none => none

/-- `Validator._clean_country`: falsy to None; strip and upper; alpha-2
kept; name lookup to alpha-2; else the raw (stripped, uppercased) code. -/
def cleanCountry : Option PyStr → Option PyStr
  | none => none
  | some s =>
    if s.isEmpty then none
    else
      let code := pyUpper (pyStrip s)
      if countriesGet code then some code
      else
        match countriesLookup code with
        | some a2 => some a2
        | none => some code

/-- A cost-item dict as the validator sees it. -/
structure VCostItem where
  extracted_category : Option PyStr
  total_cost_in_shipment_currency : Option PyNum
  currency : Option PyStr
  mention : Option PyStr
deriving DecidableEq

/-- `Validator._clean_cost_item`. -/
def cleanCostItem (it : VCostItem) : VCostItem :=
  ⟨cleanStr it.extracted_category, cleanFloat it.total_cost_in_shipment_currency,
   cleanStr it.currency, cleanStr it.mention⟩

/-- The flat record dict assembled by the orchestrator and passed to
`validate_record`. -/
structure VRecord where
  identifier : Option PyStr
  invoice_page : Option PyNum
  shipment_date : Option PyStr
  shipment_type : Option PyStr
  currency_shipment : Option PyStr
  origin_country : Option PyStr
  origin_city : Option PyStr
  origin_zipcode : Option PyStr
  destination_country : Option PyStr
  destination_city : Option PyStr
  destination_zipcode : Option PyStr
  gross_weight : Option PyNum
  chargeable_weight : Option PyNum
  loading_meter : Option PyNum
  cubic_meter : Option PyNum
  pallet_amount : Option PyNum
  cost_items : List VCostItem
deriving DecidableEq

/-- `Validator.validate_record`. -/
def validateRecord (r : VRecord) : VRecord :=
  { r with
    shipment_date := cleanDate r.shipment_date
    origin_country := cleanCountry r.origin_country
    destination_country := cleanCountry r.destination_country
    origin_city := cleanStr r.origin_city
    destination_city := cleanStr r.destination_city
    shipment_type := cleanStr r.shipment_type
    currency_shipment := cleanStr r.currency_shipment
    origin_zipcode := cleanStr r.origin_zipcode
    destination_zipcode := cleanStr r.destination_zipcode
    gross_weight := cleanFloat r.gross_weight
    chargeable_weight := cleanFloat r.chargeable_weight
    loading_meter := cleanFloat r.loading_meter
    cubic_meter := cleanFloat r.cubic_meter
    pallet_amount := cleanInt r.pallet_amount
    cost_items := r.cost_items.map cleanCostItem }

/-- A country field that is absent, empty, or keeps visible content after
stripping — everything except a non-empty all-whitespace string. -/
def countryOk : Option PyStr → Bool
  | none => true
  | some s => s.isEmpty || !(pyStrip s).isEmpty

/-- A date field that, if it parses at all, parses to a four-digit year:
`strftime("%Y-%m-%d")` pads years below 1000 to fewer than four digits
(glibc), which `strptime`'s four-digit `%Y` then rejects. -/
def dateOk : Option PyStr → Bool
  | none => true
  | some s =>
    match strptimeYMD s with
    | some d => decide (1000 ≤ d.y)
    | none =>
      match flexParse s with
      | some d => decide (1000 ≤ d.y)
      | none => true

/-- A record whose origin country is a non-empty all-whitespace string. -/
def wsCountryRecord : VRecord :=
  ⟨none, none, none, none, none, some (pyOf "  "), none, none, none, none, none,
   none, none, none, none, none, []⟩

/-!
### Character-level facts: case mapping and whitespace
-/

theorem char_eq_of_toNat (c d : Char) (h : c.toNat = d.toNat) : c = d :=
  Char.ext (UInt32.ext h)

theorem toNat_ofNat_valid (n : Nat) (h : n < 55296) : (Char.ofNat n).toNat = n := by
  unfold Char.ofNat
  rw [dif_pos (Or.inl h)]
  unfold Char.ofNatAux
  rfl

theorem isWs_iff (c : Char) :
    isWs c = true ↔ (c.toNat = 32 ∨ c.toNat = 9 ∨ c.toNat = 10 ∨
      c.toNat = 13 ∨ c.toNat = 11 ∨ c.toNat = 12) := by
  unfold isWs
  simp only [Bool.or_eq_true, decide_eq_true_eq]
  constructor
  · rintro (((((h | h) | h) | h) | h) | h) <;>
      first
        | exact Or.inl (congrArg Char.toNat h)
        | exact Or.inr (Or.inl (congrArg Char.toNat h))
        | exact Or.inr (Or.inr (Or.inl (congrArg Char.toNat h)))
        | exact Or.inr (Or.inr (Or.inr (Or.inl (congrArg Char.toNat h))))
        | exact Or.inr (Or.inr (Or.inr (Or.inr (Or.inl (congrArg Char.toNat h)))))
        | exact Or.inr (Or.inr (Or.inr (Or.inr (Or.inr (congrArg Char.toNat h)))))
  · rintro (h | h | h | h | h | h) <;>
      first
        | exact Or.inl (Or.inl (Or.inl (Or.inl (Or.inl (char_eq_of_toNat _ _ h)))))
        | exact Or.inl (Or.inl (Or.inl (Or.inl (Or.inr (char_eq_of_toNat _ _ h)))))
        | exact Or.inl (Or.inl (Or.inl (Or.inr (char_eq_of_toNat _ _ h))))
        | exact Or.inl (Or.inl (Or.inr (char_eq_of_toNat _ _ h)))
        | exact Or.inl (Or.inr (char_eq_of_toNat _ _ h))
        | exact Or.inr (char_eq_of_toNat _ _ h)

theorem isWs_false_iff (c : Char) :
    isWs c = false ↔ ¬(c.toNat = 32 ∨ c.toNat = 9 ∨ c.toNat = 10 ∨
      c.toNat = 13 ∨ c.toNat = 11 ∨ c.toNat = 12) := by
  rw [← isWs_iff]
  cases isWs c <;> simp

theorem toUpper_fixed_of_not_lower (c : Char)
    (h : ¬(c.toNat ≥ 97 ∧ c.toNat ≤ 122)) : c.toUpper = c := by
  unfold Char.toUpper
  simp [h]

theorem toUpper_toNat_of_lower (c : Char) (h : c.toNat ≥ 97 ∧ c.toNat ≤ 122) :
    c.toUpper.toNat = c.toNat - 32 := by
  unfold Char.toUpper
  rw [if_pos h]
  exact toNat_ofNat_valid _ (by omega)

theorem toLower_fixed_of_not_upper (c : Char)
    (h : ¬(c.toNat ≥ 65 ∧ c.toNat ≤ 90)) : c.toLower = c := by
  unfold Char.toLower
  simp [h]

theorem toLower_toNat_of_upper (c : Char) (h : c.toNat ≥ 65 ∧ c.toNat ≤ 90) :
    c.toLower.toNat = c.toNat + 32 := by
  unfold Char.toLower
  rw [if_pos h]
  exact toNat_ofNat_valid _ (by omega)

theorem isWs_toUpper (c : Char) : isWs c.toUpper = isWs c := by
  by_cases hl : c.toNat ≥ 97 ∧ c.toNat ≤ 122
  · have h1 := toUpper_toNat_of_lower c hl
    rw [(isWs_false_iff _).mpr (by rw [h1]; omega), (isWs_false_iff c).mpr (by omega)]
  · rw [toUpper_fixed_of_not_lower c hl]

theorem isWs_toLower (c : Char) : isWs c.toLower = isWs c := by
  by_cases hu : c.toNat ≥ 65 ∧ c.toNat ≤ 90
  · have h1 := toLower_toNat_of_upper c hu
    rw [(isWs_false_iff _).mpr (by rw [h1]; omega), (isWs_false_iff c).mpr (by omega)]
  · rw [toLower_fixed_of_not_upper c hu]

theorem isWs_pyUpperC (c : Char) : isWs (pyUpperC c) = isWs c := by
  unfold pyUpperC
  by_cases h1 : c = 'ä'
  · rw [if_pos h1, h1]; decide
  rw [if_neg h1]
  by_cases h2 : c = 'ö'
  · rw [if_pos h2, h2]; decide
  rw [if_neg h2]
  by_cases h3 : c = 'ü'
  · rw [if_pos h3, h3]; decide
  rw [if_neg h3]
  exact isWs_toUpper c

theorem isWs_pyLowerC (c : Char) : isWs (pyLowerC c) = isWs c := by
  unfold pyLowerC
  by_cases h1 : c = 'Ä'
  · rw [if_pos h1, h1]; decide
  rw [if_neg h1]
  by_cases h2 : c = 'Ö'
  · rw [if_pos h2, h2]; decide
  rw [if_neg h2]
  by_cases h3 : c = 'Ü'
  · rw [if_pos h3, h3]; decide
  rw [if_neg h3]
  exact isWs_toLower c

theorem toUpper_toUpper (c : Char) : c.toUpper.toUpper = c.toUpper := by
  by_cases hl : c.toNat ≥ 97 ∧ c.toNat ≤ 122
  · exact toUpper_fixed_of_not_lower _ (by rw [toUpper_toNat_of_lower c hl]; omega)
  · rw [toUpper_fixed_of_not_lower c hl]
    exact toUpper_fixed_of_not_lower c hl

theorem pyUpperC_eq_toUpper (c : Char)
    (h : c.toNat ≠ 228 ∧ c.toNat ≠ 246 ∧ c.toNat ≠ 252) : pyUpperC c = c.toUpper := by
  unfold pyUpperC
  rw [if_neg fun he => h.1 (by rw [he]; rfl), if_neg fun he => h.2.1 (by rw [he]; rfl),
    if_neg fun he => h.2.2 (by rw [he]; rfl)]

theorem pyUpperC_idem (c : Char) : pyUpperC (pyUpperC c) = pyUpperC c := by
  by_cases h1 : c = 'ä'
  · rw [h1]; decide
  by_cases h2 : c = 'ö'
  · rw [h2]; decide
  by_cases h3 : c = 'ü'
  · rw [h3]; decide
  have hc : pyUpperC c = c.toUpper := by
    unfold pyUpperC
    rw [if_neg h1, if_neg h2, if_neg h3]
  rw [hc]
  by_cases hl : c.toNat ≥ 97 ∧ c.toNat ≤ 122
  · have hn := toUpper_toNat_of_lower c hl
    rw [pyUpperC_eq_toUpper c.toUpper (by omega)]
    exact toUpper_toUpper c
  · rw [toUpper_fixed_of_not_lower c hl, hc]
    exact toUpper_fixed_of_not_lower c hl

theorem pyUpper_idem (s : PyStr) : pyUpper (pyUpper s) = pyUpper s := by
  unfold pyUpper
  rw [List.map_map]
  exact List.map_congr_left fun x _ => pyUpperC_idem x

/-!
### strip: idempotence and interplay with upper-casing
-/

theorem head_dropWhile_false (p : Char → Bool) :
    ∀ (l : PyStr) (x : Char), (l.dropWhile p).head? = some x → p x = false := by
  intro l
  induction l with
  | nil => intro x h; exact absurd h (by simp [List.dropWhile])
  | cons a t ih =>
    intro x h
    rw [List.dropWhile_cons] at h
    by_cases hp : p a = true
    · rw [if_pos hp] at h; exact ih x h
    · rw [if_neg hp] at h
      simp only [List.head?_cons, Option.some.injEq] at h
      rw [← h]
      cases hpa : p a with
      | false => rfl
      | true => exact absurd hpa hp

theorem dropWhile_eq_self_of_head (p : Char → Bool) (l : PyStr)
    (h : ∀ x : Char, l.head? = some x → p x = false) : l.dropWhile p = l := by
  cases l with
  | nil => rfl
  | cons a t =>
    have ha := h a rfl
    rw [List.dropWhile_cons, if_neg (by simp [ha])]

theorem dropWhile_suffix_ex (p : Char → Bool) :
    ∀ l : PyStr, ∃ t, t ++ l.dropWhile p = l := by
  intro l
  induction l with
  | nil => exact ⟨[], rfl⟩
  | cons a tl ih =>
    by_cases hp : p a = true
    · obtain ⟨t, ht⟩ := ih
      refine ⟨a :: t, ?_⟩
      rw [List.dropWhile_cons, if_pos hp, List.cons_append, ht]
    · refine ⟨[], ?_⟩
      rw [List.dropWhile_cons, if_neg hp, List.nil_append]

theorem dropWhile_dropWhile (p : Char → Bool) (l : PyStr) :
    (l.dropWhile p).dropWhile p = l.dropWhile p :=
  dropWhile_eq_self_of_head p _ fun x hx => head_dropWhile_false p l x hx

theorem pyStrip_eq_self (s : PyStr)
    (h1 : s.dropWhile isWs = s) (h2 : s.reverse.dropWhile isWs = s.reverse) :
    pyStrip s = s := by
  unfold pyStrip
  rw [h1, h2, List.reverse_reverse]

theorem pyStrip_rev_nows (t : PyStr) :
    (pyStrip t).reverse.dropWhile isWs = (pyStrip t).reverse := by
  unfold pyStrip
  rw [List.reverse_reverse]
  exact dropWhile_dropWhile isWs _

theorem pyStrip_head_nows (t : PyStr) : (pyStrip t).dropWhile isWs = pyStrip t := by
  apply dropWhile_eq_self_of_head
  intro x hx
  obtain ⟨u, hu⟩ := dropWhile_suffix_ex isWs (t.dropWhile isWs).reverse
  have hA : t.dropWhile isWs = pyStrip t ++ u.reverse := by
    have h2 := congrArg List.reverse hu
    rw [List.reverse_append, List.reverse_reverse] at h2
    exact h2.symm
  cases hc : pyStrip t with
  | nil => rw [hc] at hx; exact absurd hx (by simp)
  | cons c l =>
    rw [hc] at hx
    simp only [List.head?_cons, Option.some.injEq] at hx
    have hhead : (t.dropWhile isWs).head? = some c := by
      rw [hA, hc]; rfl
    rw [← hx]
    exact head_dropWhile_false isWs t c hhead

theorem pyStrip_idem (s : PyStr) : pyStrip (pyStrip s) = pyStrip s :=
  pyStrip_eq_self _ (pyStrip_head_nows s) (pyStrip_rev_nows s)

theorem dropWhile_map_pyUpperC (l : PyStr) :
    (l.map pyUpperC).dropWhile isWs = (l.dropWhile isWs).map pyUpperC := by
  induction l with
  | nil => rfl
  | cons a t ih =>
    rw [List.map_cons, List.dropWhile_cons, List.dropWhile_cons, isWs_pyUpperC]
    by_cases h : isWs a = true
    · rw [if_pos h, if_pos h]
      exact ih
    · rw [if_neg h, if_neg h, List.map_cons]

theorem pyStrip_pyUpper (s : PyStr) : pyStrip (pyUpper s) = pyUpper (pyStrip s) := by
  unfold pyStrip pyUpper
  rw [dropWhile_map_pyUpperC, ← List.map_reverse, dropWhile_map_pyUpperC,
    ← List.map_reverse]

theorem stripUpper_fixed (s : PyStr) :
    pyUpper (pyStrip (pyUpper (pyStrip s))) = pyUpper (pyStrip s) := by
  rw [pyStrip_pyUpper, pyStrip_idem, pyUpper_idem]

theorem pyStrip_of_noWs (s : PyStr) (h : ∀ c ∈ s, isWs c = false) : pyStrip s = s := by
  refine pyStrip_eq_self s ?_ ?_
  · refine dropWhile_eq_self_of_head isWs s fun x hx => h x ?_
    cases s with
    | nil => exact absurd hx (by simp)
    | cons a t =>
      simp only [List.head?_cons, Option.some.injEq] at hx
      rw [← hx]
      exact List.mem_cons_self a t
  · refine dropWhile_eq_self_of_head isWs s.reverse fun x hx => h x ?_
    cases hr : s.reverse with
    | nil => rw [hr] at hx; exact absurd hx (by simp)
    | cons a t =>
      rw [hr] at hx
      simp only [List.head?_cons, Option.some.injEq] at hx
      rw [← hx]
      exact (List.mem_reverse).mp (hr ▸ List.mem_cons_self a t)

/-!
### Idempotence of the field cleaners
-/

theorem cleanStr_idem (v : Option PyStr) : cleanStr (cleanStr v) = cleanStr v := by
  cases v with
  | none => rfl
  | some s =>
    by_cases he : (pyStrip s).isEmpty = true
    · have h1 : cleanStr (some s) = none := by
        simp only [cleanStr]
        rw [if_pos he]
      rw [h1]; rfl
    · have h1 : cleanStr (some s) = some (pyStrip s) := by
        simp only [cleanStr]
        rw [if_neg he]
      rw [h1]
      simp only [cleanStr]
      rw [pyStrip_idem, if_neg he]

theorem cleanFloat_idem (v : Option PyNum) : cleanFloat (cleanFloat v) = cleanFloat v := by
  cases v with
  | none => rfl
  | some n =>
    cases n with
    | int m => rfl
    | float q => rfl
    | str s =>
      simp only [cleanFloat]
      cases h1 : pyFloatOfStr s with
      | some q => rfl
      | none =>
        cases h2 : pyFloatOfStr (s.map fun c => if c = ',' then '.' else c) with
        | some q => rfl
        | none => rfl

theorem cleanInt_idem (v : Option PyNum) : cleanInt (cleanInt v) = cleanInt v := by
  cases v with
  | none => rfl
  | some n =>
    cases n with
    | int m => rfl
    | float q => rfl
    | str s =>
      simp only [cleanInt]
      cases h1 : pyIntOfStr s with
      | some q => rfl
      | none => rfl

theorem cleanCostItem_idem (it : VCostItem) :
    cleanCostItem (cleanCostItem it) = cleanCostItem it := by
  show (⟨cleanStr (cleanStr it.extracted_category),
    cleanFloat (cleanFloat it.total_cost_in_shipment_currency),
    cleanStr (cleanStr it.currency), cleanStr (cleanStr it.mention)⟩ : VCostItem) = _
  rw [cleanStr_idem, cleanStr_idem, cleanStr_idem, cleanFloat_idem]
  rfl

/-!
### The date round trip: formatting a valid date reparses to it
-/

/-- The exact validity condition `mkValidDate` checked. -/
def ValidYMD (x : YMD) : Prop :=
  1 ≤ x.y ∧ x.y ≤ 9999 ∧ 1 ≤ x.m ∧ x.m ≤ 12 ∧ 1 ≤ x.d ∧ x.d ≤ daysInMonth x.y x.m

theorem mkValidDate_validYMD (y m d : Nat) (x : YMD)
    (h : mkValidDate y m d = some x) : ValidYMD x := by
  unfold mkValidDate at h
  by_cases hc : 1 ≤ y ∧ y ≤ 9999 ∧ 1 ≤ m ∧ m ≤ 12 ∧ 1 ≤ d ∧ d ≤ daysInMonth y m
  · rw [if_pos hc] at h
    injection h with h2
    rw [← h2]
    exact hc
  · rw [if_neg hc] at h
    exact absurd h (by simp)

theorem safeParseDMY_validYMD (a b y : Nat) (x : YMD)
    (h : safeParseDMY a b y = some x) : ValidYMD x := by
  unfold safeParseDMY at h
  by_cases hb : b ≤ 12
  · rw [if_pos hb] at h; exact mkValidDate_validYMD _ _ _ _ h
  · rw [if_neg hb] at h; exact mkValidDate_validYMD _ _ _ _ h

theorem strptimeYMD_validYMD (s : PyStr) (x : YMD) (h : strptimeYMD s = some x) :
    ValidYMD x := by
  unfold strptimeYMD at h
  split at h
  · split at h
    · exact mkValidDate_validYMD _ _ _ _ h
    · exact absurd h (by simp)
  · exact absurd h (by simp)

theorem flexParse_validYMD (s : PyStr) (x : YMD) (h : flexParse s = some x) :
    ValidYMD x := by
  simp only [flexParse] at h
  split at h
  · split at h
    · exact safeParseDMY_validYMD _ _ _ _ h
    · exact absurd h (by simp)
  · exact absurd h (by simp)

theorem isDigitC_digitChar (k : Nat) (h : k ≤ 9) : isDigitC (digitChar k) = true := by
  interval_cases k <;> decide

theorem digitChar_ne_dash (k : Nat) (h : k ≤ 9) : digitChar k ≠ '-' := by
  interval_cases k <;> decide

theorem pyStrOfNat_one (n : Nat) (h : n ≤ 9) : pyStrOfNat n = [digitChar n] := by
  rw [pyStrOfNat]
  exact natDigitsFuel_last _ _ (by omega) (by omega)

theorem pyStrOfNat_three (n : Nat) (h1 : 100 ≤ n) (h2 : n ≤ 999) :
    pyStrOfNat n = [digitChar (n / 100), digitChar (n / 10 % 10), digitChar (n % 10)] := by
  rw [pyStrOfNat, natDigitsFuel_step (n + 1) n (by omega) (by omega),
    natDigitsFuel_step _ _ (by omega) (by omega),
    natDigitsFuel_last _ _ (by omega) (by omega)]
  have e1 : n / 10 / 10 = n / 100 := by omega
  rw [e1]
  simp

theorem parseNat_one (a : Nat) (ha : a ≤ 9) : parseNat [digitChar a] = a := by
  simp only [parseNat, List.foldl_cons, List.foldl_nil]
  rw [digitVal_digitChar a ha]
  omega

theorem parseNat_three (a b c : Nat) (ha : a ≤ 9) (hb : b ≤ 9) (hc : c ≤ 9) :
    parseNat [digitChar a, digitChar b, digitChar c] = a * 100 + b * 10 + c := by
  simp only [parseNat, List.foldl_cons, List.foldl_nil]
  rw [digitVal_digitChar a ha, digitVal_digitChar b hb, digitVal_digitChar c hc]
  omega

theorem parseNat_four (a b c d : Nat) (ha : a ≤ 9) (hb : b ≤ 9) (hc : c ≤ 9)
    (hd : d ≤ 9) :
    parseNat [digitChar a, digitChar b, digitChar c, digitChar d]
      = a * 1000 + b * 100 + c * 10 + d := by
  simp only [parseNat, List.foldl_cons, List.foldl_nil]
  rw [digitVal_digitChar a ha, digitVal_digitChar b hb, digitVal_digitChar c hc,
    digitVal_digitChar d hd]
  omega

theorem parseNat_pad2 (n : Nat) (h : n ≤ 99) : parseNat (pad2 n) = n := by
  rw [pad2_eq n h, parseNat_two _ _ (by omega) (by omega)]
  omega

theorem pad2_shape (n : Nat) (h : n ≤ 99) :
    (pad2 n).length = 2 ∧ (∀ c ∈ pad2 n, isDigitC c = true) ∧
      ∀ c ∈ pad2 n, c ≠ '-' := by
  rw [pad2_eq n h]
  refine ⟨rfl, ?_, ?_⟩
  · intro c hc
    rcases List.mem_cons.mp hc with rfl | hc2
    · exact isDigitC_digitChar _ (by omega)
    rcases List.mem_cons.mp hc2 with rfl | hc3
    · exact isDigitC_digitChar _ (by omega)
    · exact absurd hc3 (by simp)
  · intro c hc
    rcases List.mem_cons.mp hc with rfl | hc2
    · exact digitChar_ne_dash _ (by omega)
    rcases List.mem_cons.mp hc2 with rfl | hc3
    · exact digitChar_ne_dash _ (by omega)
    · exact absurd hc3 (by simp)

theorem pyStrOfNat_four_shape (n : Nat) (h1 : 1000 ≤ n) (h2 : n ≤ 9999) :
    (pyStrOfNat n).length = 4 ∧ (∀ c ∈ pyStrOfNat n, isDigitC c = true) ∧
      (∀ c ∈ pyStrOfNat n, c ≠ '-') ∧ parseNat (pyStrOfNat n) = n := by
  rw [pyStrOfNat_four n h1 h2]
  refine ⟨rfl, ?_, ?_, ?_⟩
  · intro c hc
    rcases List.mem_cons.mp hc with rfl | hc
    · exact isDigitC_digitChar _ (by omega)
    rcases List.mem_cons.mp hc with rfl | hc
    · exact isDigitC_digitChar _ (by omega)
    rcases List.mem_cons.mp hc with rfl | hc
    · exact isDigitC_digitChar _ (by omega)
    rcases List.mem_cons.mp hc with rfl | hc
    · exact isDigitC_digitChar _ (by omega)
    · exact absurd hc (by simp)
  · intro c hc
    rcases List.mem_cons.mp hc with rfl | hc
    · exact digitChar_ne_dash _ (by omega)
    rcases List.mem_cons.mp hc with rfl | hc
    · exact digitChar_ne_dash _ (by omega)
    rcases List.mem_cons.mp hc with rfl | hc
    · exact digitChar_ne_dash _ (by omega)
    rcases List.mem_cons.mp hc with rfl | hc
    · exact digitChar_ne_dash _ (by omega)
    · exact absurd hc (by simp)
  · rw [parseNat_four _ _ _ _ (by omega) (by omega) (by omega) (by omega)]
    omega

theorem pySplitAux_no_sep (sep : Char) :
    ∀ (l acc : PyStr), (∀ c ∈ l, c ≠ sep) → pySplitAux sep l acc = [acc ++ l] := by
  intro l
  induction l with
  | nil => intro acc _; simp [pySplitAux]
  | cons a t ih =>
    intro acc h
    rw [pySplitAux, if_neg (h a (by simp)),
      ih (acc ++ [a]) fun c hc => h c (by simp [hc])]
    simp

theorem pySplitAux_sep (sep : Char) :
    ∀ (l acc rest : PyStr), (∀ c ∈ l, c ≠ sep) →
      pySplitAux sep (l ++ sep :: rest) acc = (acc ++ l) :: pySplitAux sep rest [] := by
  intro l
  induction l with
  | nil =>
    intro acc rest _
    rw [List.nil_append, pySplitAux, if_pos rfl]
    simp
  | cons a t ih =>
    intro acc rest h
    rw [List.cons_append, pySplitAux, if_neg (h a (by simp)),
      ih (acc ++ [a]) rest fun c hc => h c (by simp [hc])]
    simp

theorem pySplit_three (sep : Char) (a b c : PyStr)
    (ha : ∀ x ∈ a, x ≠ sep) (hb : ∀ x ∈ b, x ≠ sep) (hc : ∀ x ∈ c, x ≠ sep) :
    pySplit sep (a ++ sep :: (b ++ sep :: c)) = [a, b, c] := by
  unfold pySplit
  rw [pySplitAux_sep sep a [] (b ++ sep :: c) ha, pySplitAux_sep sep b [] c hb,
    pySplitAux_no_sep sep c [] hc]
  simp

theorem strptimeYMD_fmtYMD (x : YMD) (hv : ValidYMD x) (hy : 1000 ≤ x.y) :
    strptimeYMD (fmtYMD x) = some x := by
  obtain ⟨h1, h2, h3, h4, h5, h6⟩ := hv
  have hd31 : x.d ≤ 31 := le_trans h6 (daysInMonth_le x.y x.m)
  obtain ⟨hy1, hy2, hy3, hy4⟩ := pyStrOfNat_four_shape x.y hy h2
  obtain ⟨hm1, hm2, hm3⟩ := pad2_shape x.m (by omega)
  obtain ⟨hdd1, hdd2, hdd3⟩ := pad2_shape x.d (by omega)
  have hfmt : fmtYMD x = pyStrOfNat x.y ++ '-' :: (pad2 x.m ++ '-' :: pad2 x.d) := rfl
  have hstep : strptimeYMD (fmtYMD x) =
      if (pyStrOfNat x.y).length = 4 ∧ (∀ c ∈ pyStrOfNat x.y, isDigitC c = true) ∧
         pad2 x.m ≠ [] ∧ (pad2 x.m).length ≤ 2 ∧ (∀ c ∈ pad2 x.m, isDigitC c = true) ∧
         pad2 x.d ≠ [] ∧ (pad2 x.d).length ≤ 2 ∧ (∀ c ∈ pad2 x.d, isDigitC c = true) then
        mkValidDate (parseNat (pyStrOfNat x.y)) (parseNat (pad2 x.m))
          (parseNat (pad2 x.d))
      else none := by
    unfold strptimeYMD
    rw [hfmt, pySplit_three '-' _ _ _ hy3 hm3 hdd3]
  rw [hstep, if_pos ⟨hy1, hy2, by simp [pad2_eq x.m (by omega)], by rw [hm1],
    hm2, by simp [pad2_eq x.d (by omega)], by rw [hdd1], hdd2⟩]
  rw [hy4, parseNat_pad2 x.m (by omega), parseNat_pad2 x.d (by omega)]
  unfold mkValidDate
  rw [if_pos ⟨by omega, h2, h3, h4, h5, h6⟩]

theorem cleanDate_fmt (x : YMD) (hv : ValidYMD x) (hy : 1000 ≤ x.y) :
    cleanDate (some (fmtYMD x)) = some (fmtYMD x) := by
  have hne : (fmtYMD x).isEmpty = false := by
    show (pyStrOfNat x.y ++ '-' :: (pad2 x.m ++ '-' :: pad2 x.d)).isEmpty = false
    cases pyStrOfNat x.y <;> rfl
  simp only [cleanDate]
  rw [if_neg (by simp [hne]), strptimeYMD_fmtYMD x hv hy]

theorem cleanDate_idem (v : Option PyStr) (hok : dateOk v = true) :
    cleanDate (cleanDate v) = cleanDate v := by
  cases v with
  | none => rfl
  | some s =>
    by_cases he : s.isEmpty = true
    · have h0 : cleanDate (some s) = none := by
        simp only [cleanDate]; rw [if_pos he]
      rw [h0]; rfl
    · have h0 : cleanDate (some s) =
          match strptimeYMD s with
          | some d => some (fmtYMD d)
          | none =>
            match flexParse s with
            | some d => some (fmtYMD d)
            | none => none := by
        simp only [cleanDate]; rw [if_neg he]
      cases hs : strptimeYMD s with
      | some d =>
        have h1 : cleanDate (some s) = some (fmtYMD d) := by rw [h0, hs]
        have hy : 1000 ≤ d.y := by
          simp only [dateOk] at hok
          rw [hs] at hok
          exact of_decide_eq_true hok
        rw [h1]
        exact cleanDate_fmt d (strptimeYMD_validYMD s d hs) hy
      | none =>
        cases hf : flexParse s with
        | some d =>
          have h1 : cleanDate (some s) = some (fmtYMD d) := by rw [h0, hs, hf]
          have hy : 1000 ≤ d.y := by
            simp only [dateOk] at hok
            rw [hs, hf] at hok
            exact of_decide_eq_true hok
          rw [h1]
          exact cleanDate_fmt d (flexParse_validYMD s d hf) hy
        | none =>
          have h1 : cleanDate (some s) = none := by rw [h0, hs, hf]
          rw [h1]; rfl

/-!
### Country cleaning: idempotent except on whitespace-only strings
-/

theorem lookupTable_results_ok :
    ∀ kv ∈ countryLookupTable, countriesGet kv.2 = true ∧ kv.2 ≠ [] ∧
      (∀ c ∈ kv.2, isWs c = false) ∧ pyUpper kv.2 = kv.2 := by
  decide

theorem pyUpper_isEmpty (s : PyStr) : (pyUpper s).isEmpty = s.isEmpty := by
  cases s <;> rfl

theorem cleanCountry_idem (v : Option PyStr) (h : countryOk v = true) :
    cleanCountry (cleanCountry v) = cleanCountry v := by
  cases v with
  | none => rfl
  | some s =>
    by_cases he : s.isEmpty = true
    · have h0 : cleanCountry (some s) = none := by
        simp only [cleanCountry]; rw [if_pos he]
      rw [h0]; rfl
    · have hst : (pyStrip s).isEmpty = false := by
        simp only [countryOk] at h
        rcases Bool.or_eq_true _ _ |>.mp h with h | h
        · exact absurd h he
        · simp only [Bool.not_eq_true'] at h
          exact h
      have hcode_ne : (pyUpper (pyStrip s)).isEmpty = false := by
        rw [pyUpper_isEmpty]; exact hst
      have hfix : pyUpper (pyStrip (pyUpper (pyStrip s))) = pyUpper (pyStrip s) :=
        stripUpper_fixed s
      have h0 : cleanCountry (some s) =
          (if countriesGet (pyUpper (pyStrip s)) then some (pyUpper (pyStrip s))
           else
            match countriesLookup (pyUpper (pyStrip s)) with
            | some a2 => some a2
            | none => some (pyUpper (pyStrip s))) := by
        simp only [cleanCountry]; rw [if_neg he]
      by_cases hg : countriesGet (pyUpper (pyStrip s)) = true
      · have h1 : cleanCountry (some s) = some (pyUpper (pyStrip s)) := by
          rw [h0, if_pos hg]
        rw [h1]
        simp only [cleanCountry]
        rw [if_neg (by simp [hcode_ne]), hfix, if_pos hg]
      · have h0' : cleanCountry (some s) =
            match countriesLookup (pyUpper (pyStrip s)) with
            | some a2 => some a2
            | none => some (pyUpper (pyStrip s)) := by
          rw [h0, if_neg hg]
        cases hl : countriesLookup (pyUpper (pyStrip s)) with
        | some a2 =>
          have h1 : cleanCountry (some s) = some a2 := by rw [h0', hl]
          have hkv : ∃ kv ∈ countryLookupTable, kv.2 = a2 := by
            unfold countriesLookup at hl
            cases hf : countryLookupTable.find? fun kv => kv.1 == pyUpper (pyStrip s) with
            | none => rw [hf] at hl; exact absurd hl (by simp)
            | some kv =>
              rw [hf] at hl
              simp at hl
              exact ⟨kv, List.mem_of_find?_eq_some hf, hl⟩
          obtain ⟨kv, hmem, hkv2⟩ := hkv
          obtain ⟨hget, hne, hnows, hupper⟩ := lookupTable_results_ok kv hmem
          rw [hkv2] at hget hne hnows hupper
          rw [h1]
          simp only [cleanCountry]
          rw [if_neg (by simp [List.isEmpty_iff, hne]), pyStrip_of_noWs a2 hnows,
            hupper, if_pos hget]
        | none =>
          have h1 : cleanCountry (some s) = some (pyUpper (pyStrip s)) := by
            rw [h0', hl]
          rw [h1]
          simp only [cleanCountry]
          rw [if_neg (by simp [hcode_ne]), hfix, if_neg hg, hl]

/-!
### C9: validate_record applied twice
-/

/-- Counterexample to C9 as stated: a whitespace-only origin country maps to
the empty string on the first validation (truthy input, strip-to-empty kept
by the raw-code fallback) and to None on the second (now falsy), so the
second validation still changes the record. -/
theorem validator_idempotent_counterexample :
    validateRecord (validateRecord wsCountryRecord) ≠ validateRecord wsCountryRecord ∧
    (validateRecord wsCountryRecord).origin_country = some [] ∧
    (validateRecord (validateRecord wsCountryRecord)).origin_country = none := by
  decide

/-- C9 (amended): `validate_record` is idempotent on every record whose two
country fields are not non-empty all-whitespace strings and whose
shipment_date, if it parses at all, parses to a four-digit year. -/
theorem validator_idempotent (r : VRecord)
    (h1 : countryOk r.origin_country = true)
    (h2 : countryOk r.destination_country = true)
    (h3 : dateOk r.shipment_date = true) :
    validateRecord (validateRecord r) = validateRecord r := by
  obtain ⟨idf, pg, sd, st, cur, oc, oci, ozp, dct, dci, dzp, gw, cw, lm, cbm, pa,
    items⟩ := r
  simp only [validateRecord]
  simp only [VRecord.mk.injEq]
  refine ⟨trivial, trivial, cleanDate_idem sd h3, cleanStr_idem st, cleanStr_idem cur,
    cleanCountry_idem oc h1, cleanStr_idem oci, cleanStr_idem ozp,
    cleanCountry_idem dct h2, cleanStr_idem dci, cleanStr_idem dzp,
    cleanFloat_idem gw, cleanFloat_idem cw, cleanFloat_idem lm,
    cleanFloat_idem cbm, cleanInt_idem pa, ?_⟩
  rw [List.map_map]
  exact List.map_congr_left fun it _ => cleanCostItem_idem it

/-- A realistic fully-populated record for the idempotence witness. -/
def validatorWitnessRecord : VRecord :=
  ⟨some (pyOf "1Z12345E0205271688"), some (.int 1), some (pyOf "2025-11-27"),
   some (pyOf "UPS Express"), some (pyOf "CHF"), some (pyOf "Germany"),
   some (pyOf " Hamburg "), some (pyOf "20457"), some (pyOf "CH"), none, none,
   some (.float (mkRat 11 2)), some (.str (pyOf "6,0")), none, none, some (.int 2),
   [⟨some (pyOf "Freight"), some (.float (mkRat 15432 25)), some (pyOf "CHF"),
     some (pyOf "Transport 1.234,56 617,28")⟩]⟩

/-- Witness for C9 (amended) at a concrete record: country and date
hypotheses hold and the second validation changes nothing. -/
theorem validator_idempotent_witness :
    countryOk validatorWitnessRecord.origin_country = true ∧
    countryOk validatorWitnessRecord.destination_country = true ∧
    dateOk validatorWitnessRecord.shipment_date = true ∧
    validateRecord (validateRecord validatorWitnessRecord)
      = validateRecord validatorWitnessRecord :=
  ⟨by decide, by decide, by decide,
   validator_idempotent validatorWitnessRecord (by decide) (by decide) (by decide)⟩

/-!
### Orchestrator (extract.py): the block record and its currency
-/

/-- The truthiness filter `if item.get("currency"):` of
`_extract_block_currency`. -/
def truthyCurrency : Option PyStr → Option PyStr
  | some s => if s.isEmpty then none else some s
  | none => none

/-- `_extract_block_currency`: scan the cost items in reverse, return the
first truthy currency. -/
def extractBlockCurrency (items : List CostItem) : Option PyStr :=
  items.reverse.findSome? fun it => truthyCurrency it.currency

/-- A raw cost-item dict as placed into the record (extract.py line 96). -/
def toVCostItem (it : CostItem) : VCostItem :=
  ⟨some it.extracted_category, it.total_cost_in_shipment_currency.map PyNum.float,
   it.currency, some it.mention⟩

/-- The flat record assembled for one block (extract.py lines 60-101) and
then passed to the validator (which, in the model, always succeeds, so the
try/except emits the validated record).  The service and location extractors
are not modelled; their outputs enter as opaque parameters, as do the
block's page number and the inferred invoice year. -/
def blockRecord (text : PyStr) (page : Option PyNum) (iy : Option Nat)
    (svc oc ocity ozp dct dcity dzp : Option PyStr) : VRecord :=
  ⟨identifierExtract text, page, dateExtract text iy, svc,
   extractBlockCurrency (costExtract text), oc, ocity, ozp, dct, dcity, dzp,
   ((weightExtract text).gross_weight).map PyNum.float,
   ((weightExtract text).chargeable_weight).map PyNum.float,
   ((weightExtract text).loading_meter).map PyNum.float,
   ((weightExtract text).cubic_meter).map PyNum.float,
   ((weightExtract text).pallet_amount).map fun n => PyNum.int n,
   (costExtract text).map toVCostItem⟩

/-- The currency of the last cost item carrying a non-null currency. -/
def lastNonNullCurrency (items : List VCostItem) : Option PyStr :=
  items.reverse.findSome? fun it => it.currency

/-- Currencies the cost extractor can attach: absent, or a non-empty token
without whitespace (a regex currency group of three letters, possibly
uppercased). -/
def NiceCurrency (v : Option PyStr) : Prop :=
  v = none ∨ ∃ s, v = some s ∧ s ≠ [] ∧ ∀ c ∈ s, isWs c = false

theorem isWs_false_of_letter (c : Char) (h : isAsciiLetter c = true) :
    isWs c = false := by
  simp only [isAsciiLetter, Bool.or_eq_true, Bool.and_eq_true, decide_eq_true_eq,
    Char.le_def] at h
  have h3 : (65 ≤ c.toNat ∧ c.toNat ≤ 90) ∨ (97 ≤ c.toNat ∧ c.toNat ≤ 122) := by
    rcases h with ⟨ha, hb⟩ | ⟨ha, hb⟩
    · exact Or.inl ⟨ha, hb⟩
    · exact Or.inr ⟨ha, hb⟩
  exact (isWs_false_iff c).mpr (by omega)

theorem detectInvoiceCurrency_shape (text s : PyStr)
    (hd : detectInvoiceCurrency text = some s) :
    s ≠ [] ∧ ∀ c ∈ s, isWs c = false := by
  obtain ⟨suf, hmem, hf⟩ := List.exists_of_findSome?_eq_some hd
  split at hf
  · have hf2 : (if ((suf.drop 12).takeWhile isWs).isEmpty = true then none
        else
          match (suf.drop 12).dropWhile isWs with
          | a :: b :: c :: _ =>
            if (isAsciiLetter a && isAsciiLetter b && isAsciiLetter c) = true then
              some [a, b, c]
            else none
          | _ => (none : Option PyStr)) = some s := hf
    clear hf
    split at hf2
    · exact absurd hf2 (by simp)
    · split at hf2
      · rename_i a b c rest
        split at hf2
        · rename_i hlet
          injection hf2 with hfe
          subst hfe
          simp only [Bool.and_eq_true] at hlet
          refine ⟨by simp, ?_⟩
          intro x hx
          rcases List.mem_cons.mp hx with rfl | hx
          · exact isWs_false_of_letter x hlet.1.1
          rcases List.mem_cons.mp hx with rfl | hx
          · exact isWs_false_of_letter x hlet.1.2
          rcases List.mem_cons.mp hx with rfl | hx
          · exact isWs_false_of_letter x hlet.2
          · exact absurd hx (by simp)
        · exact absurd hf2 (by simp)
      · exact absurd hf2 (by simp)
  · exact absurd hf (by simp)

theorem detectCurrencyInline_shape (line s : PyStr)
    (hd : detectCurrencyInline line = some s) :
    s ≠ [] ∧ ∀ c ∈ s, isWs c = false := by
  obtain ⟨t, hmem, hf⟩ := List.exists_of_findSome?_eq_some hd
  split at hf
  · rename_i hcond
    injection hf with hf2
    subst hf2
    simp only [List.any_eq_true] at hcond
    obtain ⟨k, hk, heqk⟩ := hcond
    have hlow : pyLower t = k := eq_of_beq heqk
    have hkfacts : k ≠ [] ∧ ∀ x ∈ k, isWs x = false := by
      fin_cases hk <;> exact ⟨by decide, by decide⟩
    constructor
    · intro hnil
      have ht : t = [] := by
        cases t with
        | nil => rfl
        | cons a r => exact absurd hnil (by simp [pyUpper])
      rw [ht] at hlow
      exact hkfacts.1 hlow.symm
    · intro x hx
      obtain ⟨y, hy, rfl⟩ := List.mem_map.mp hx
      rw [isWs_pyUpperC, ← isWs_pyLowerC]
      refine hkfacts.2 _ ?_
      rw [← hlow]
      exact List.mem_map_of_mem _ hy
  · exact absurd hf (by simp)

theorem costCurrency_shape (curInv : Option PyStr) (line : PyStr)
    (hinv : NiceCurrency curInv) : NiceCurrency (costCurrency curInv line) := by
  unfold costCurrency
  cases hd : detectCurrencyInline line with
  | some c => exact Or.inr ⟨c, rfl, detectCurrencyInline_shape line c hd⟩
  | none => exact hinv

theorem costLoop_currency (curInv : Option PyStr) (hinv : NiceCurrency curInv) :
    ∀ (lines : List PyStr) (seen : List (PyStr × Option Rat × Option PyStr))
      (acc : List CostItem),
      (∀ it ∈ acc, NiceCurrency it.currency) →
      ∀ it ∈ costLoop curInv lines seen acc, NiceCurrency it.currency := by
  intro lines
  induction lines with
  | nil => intro seen acc hacc it hit; exact hacc it hit
  | cons raw rest ih =>
    intro seen acc hacc it hit
    simp only [costLoop] at hit
    by_cases h1 : (pyStrip raw).isEmpty = true
    · rw [if_pos h1] at hit; exact ih seen acc hacc it hit
    · rw [if_neg h1] at hit
      by_cases h2 : (skipKeywords.any fun k => containsSub (pyLower (pyStrip raw)) k) = true
      · rw [if_pos h2] at hit; exact ih seen acc hacc it hit
      · rw [if_neg h2] at hit
        cases hrm : rowMatch (pyStrip raw) with
        | none => rw [hrm] at hit; exact ih seen acc hacc it hit
        | some dc =>
          rw [hrm] at hit
          obtain ⟨desc, cols⟩ := dc
          have hit2 : it ∈
              (if sigOf (costItemOf curInv (pyStrip raw) desc cols) ∈ seen then
                costLoop curInv rest seen acc
              else costLoop curInv rest
                (sigOf (costItemOf curInv (pyStrip raw) desc cols) :: seen)
                (acc ++ [costItemOf curInv (pyStrip raw) desc cols])) := hit
          clear hit
          by_cases h3 : sigOf (costItemOf curInv (pyStrip raw) desc cols) ∈ seen
          · rw [if_pos h3] at hit2
            exact ih seen acc hacc it hit2
          · rw [if_neg h3] at hit2
            refine ih _ _ ?_ it hit2
            intro u hu
            rcases List.mem_append.mp hu with hu1 | hu2
            · exact hacc u hu1
            · have : u = costItemOf curInv (pyStrip raw) desc cols := by
                rcases List.mem_cons.mp hu2 with h | h
                · exact h
                · exact absurd h (by simp)
              rw [this]
              exact costCurrency_shape curInv (pyStrip raw) hinv

theorem costExtract_currency (text : PyStr) :
    ∀ it ∈ costExtract text, NiceCurrency it.currency := by
  intro it hit
  refine costLoop_currency (detectInvoiceCurrency text) ?_ (splitNL text) [] []
    (fun u hu => absurd hu (by simp)) it hit
  cases hd : detectInvoiceCurrency text with
  | none => exact Or.inl rfl
  | some s => exact Or.inr ⟨s, rfl, detectInvoiceCurrency_shape text s hd⟩

theorem cleanStr_nice (v : Option PyStr) (h : NiceCurrency v) : cleanStr v = v := by
  rcases h with rfl | ⟨s, rfl, hne, hnows⟩
  · rfl
  · simp only [cleanStr]
    rw [pyStrip_of_noWs s hnows, if_neg (by simp [List.isEmpty_iff, hne])]

theorem currency_fold (l : List CostItem) (h : ∀ it ∈ l, NiceCurrency it.currency) :
    cleanStr (l.findSome? fun it => truthyCurrency it.currency)
      = l.findSome? fun it => cleanStr it.currency := by
  induction l with
  | nil => rfl
  | cons it l ih =>
    have htail := fun u hu => h u (List.mem_cons_of_mem it hu)
    rcases h it (List.mem_cons_self it l) with hnone | ⟨s, hsome, hne, hnows⟩
    · have ht : truthyCurrency it.currency = none := by rw [hnone]; rfl
      have hc : cleanStr it.currency = none := by rw [hnone]; rfl
      have hL : (List.findSome? (fun it : CostItem => truthyCurrency it.currency)
          (it :: l)) = List.findSome? (fun it : CostItem => truthyCurrency it.currency) l := by
        rw [List.findSome?_cons, ht]
      have hR : List.findSome? (fun it : CostItem => cleanStr it.currency) (it :: l)
          = List.findSome? (fun it : CostItem => cleanStr it.currency) l := by
        rw [List.findSome?_cons, hc]
      rw [hL, hR]
      exact ih htail
    · have hnemp : s.isEmpty = false := by simp [List.isEmpty_iff, hne]
      have hcs : cleanStr (some s) = some s :=
        cleanStr_nice _ (Or.inr ⟨s, rfl, hne, hnows⟩)
      have ht : truthyCurrency it.currency = some s := by
        rw [hsome]
        simp only [truthyCurrency]
        rw [if_neg (by simp [hnemp])]
      have hc : cleanStr it.currency = some s := by rw [hsome, hcs]
      have hL : (List.findSome? (fun it : CostItem => truthyCurrency it.currency)
          (it :: l)) = some s := by
        rw [List.findSome?_cons, ht]
      have hR : List.findSome? (fun it : CostItem => cleanStr it.currency) (it :: l)
          = some s := by
        rw [List.findSome?_cons, hc]
      rw [hL, hR]
      exact hcs

/-- C10: after validation, the emitted record's `currency_shipment` equals
the currency of the last of its cost items that carries a non-null
currency, and is `none` when no cost item does. -/
theorem orchestrator_currency (text : PyStr) (page : Option PyNum) (iy : Option Nat)
    (svc oc ocity ozp dct dcity dzp : Option PyStr) :
    (validateRecord
        (blockRecord text page iy svc oc ocity ozp dct dcity dzp)).currency_shipment
      = lastNonNullCurrency (validateRecord
          (blockRecord text page iy svc oc ocity ozp dct dcity dzp)).cost_items := by
  have hL : (validateRecord
      (blockRecord text page iy svc oc ocity ozp dct dcity dzp)).currency_shipment
      = cleanStr (extractBlockCurrency (costExtract text)) := rfl
  have hR : (validateRecord
      (blockRecord text page iy svc oc ocity ozp dct dcity dzp)).cost_items
      = ((costExtract text).map toVCostItem).map cleanCostItem := rfl
  rw [hL, hR]
  unfold lastNonNullCurrency extractBlockCurrency
  rw [List.map_map, ← List.map_reverse, List.findSome?_map]
  have hcomp : ((fun it : VCostItem => it.currency) ∘ (cleanCostItem ∘ toVCostItem))
      = fun it : CostItem => cleanStr it.currency := rfl
  rw [hcomp]
  exact currency_fold (costExtract text).reverse
    fun it hit => costExtract_currency text it (List.mem_reverse.mp hit)

end Invoice
